import Mathlib

/-!
Verification of the SE(3) pose module (`optima_3d_pose.rs`) of the
optima_toolbox repository.  Scalars are modelled by the real numbers,
machine floating point by exact real arithmetic.  The pose data model,
the Lie-algebra kernel (`generic_pose_ln` / `generic_pose_exp`), both
concrete pose representations, and the 6-element serialization codec are
embedded below, together with theorems settling the specification's
claims about them.
-/

noncomputable section

/-- A 3-vector over the reals, mirroring `nalgebra::Vector3<T>`. -/
structure V3 where
  x : ℝ
  y : ℝ
  z : ℝ

def V3.zero : V3 := ⟨0, 0, 0⟩

def V3.add (a b : V3) : V3 := ⟨a.x + b.x, a.y + b.y, a.z + b.z⟩

def V3.neg (a : V3) : V3 := ⟨-a.x, -a.y, -a.z⟩

def V3.sub (a b : V3) : V3 := ⟨a.x - b.x, a.y - b.y, a.z - b.z⟩

def V3.smul (r : ℝ) (a : V3) : V3 := ⟨r * a.x, r * a.y, r * a.z⟩

def V3.dot (a b : V3) : ℝ := a.x * b.x + a.y * b.y + a.z * b.z

def V3.cross (a b : V3) : V3 :=
  ⟨a.y * b.z - a.z * b.y, a.z * b.x - a.x * b.z, a.x * b.y - a.y * b.x⟩

def V3.normSq (a : V3) : ℝ := a.x ^ 2 + a.y ^ 2 + a.z ^ 2

/-- Euclidean norm of a 3-vector (`Vector3::norm`). -/
def V3.norm (a : V3) : ℝ := Real.sqrt a.normSq

/-- A quaternion `w + x·i + y·j + z·k`, mirroring `nalgebra::Quaternion<T>`
(`w` is the scalar part, `(x, y, z)` the vector part).  The code's
`UnitQuaternion<T>` is this same data with unit norm maintained as an
invariant, not enforced by the type; unit-norm hypotheses appear in the
theorems instead. -/
structure Quat where
  w : ℝ
  x : ℝ
  y : ℝ
  z : ℝ

/-- The vector (imaginary) part of a quaternion. -/
def Quat.vecPart (q : Quat) : V3 := ⟨q.x, q.y, q.z⟩

/-- Hamilton product of quaternions (`Quaternion * Quaternion`). -/
def Quat.mul (a b : Quat) : Quat :=
  ⟨a.w * b.w - a.x * b.x - a.y * b.y - a.z * b.z,
   a.w * b.x + a.x * b.w + a.y * b.z - a.z * b.y,
   a.w * b.y - a.x * b.z + a.y * b.w + a.z * b.x,
   a.w * b.z + a.x * b.y - a.y * b.x + a.z * b.w⟩

/-- Quaternion conjugate.  `nalgebra`'s `UnitQuaternion::inverse` is the
conjugate of the contained quaternion. -/
def Quat.conj (q : Quat) : Quat := ⟨q.w, -q.x, -q.y, -q.z⟩

def Quat.neg (q : Quat) : Quat := ⟨-q.w, -q.x, -q.y, -q.z⟩

def Quat.smul (r : ℝ) (q : Quat) : Quat := ⟨r * q.w, r * q.x, r * q.y, r * q.z⟩

def Quat.normSq (q : Quat) : ℝ := q.w ^ 2 + q.x ^ 2 + q.y ^ 2 + q.z ^ 2

def Quat.norm (q : Quat) : ℝ := Real.sqrt q.normSq

/-- `Quaternion::normalize`, used by `UnitQuaternion::from_quaternion`:
divide by the Euclidean norm. -/
def Quat.normalize (q : Quat) : Quat := Quat.smul (1 / q.norm) q

/-- The identity quaternion. -/
def Quat.one : Quat := ⟨1, 0, 0, 0⟩

/-- Modelled from the spec: the external rotation capability's action of a
unit quaternion on a 3-vector (`UnitQuaternion * Vector3` in `nalgebra`,
which is not part of this repository): the vector part of
`q * (0, v) * conj q`. -/
def Quat.act (q : Quat) (v : V3) : V3 :=
  (Quat.mul (Quat.mul q ⟨0, v.x, v.y, v.z⟩) q.conj).vecPart

/-- Two-argument arctangent `atan2 y x`, modelled as the argument of the
complex number `x + y·i` (range `(-π, π]`, `atan2 0 0 = 0`), matching the
floating-point `atan2` used by the source. -/
def atan2 (y x : ℝ) : ℝ := Complex.arg ⟨x, y⟩

/-- A 6-vector, mirroring `nalgebra::Vector6<T>`; components in the order
given to `Vector6::new`. -/
structure V6 where
  c0 : ℝ
  c1 : ℝ
  c2 : ℝ
  c3 : ℝ
  c4 : ℝ
  c5 : ℝ

def V6.normSq (v : V6) : ℝ :=
  v.c0 ^ 2 + v.c1 ^ 2 + v.c2 ^ 2 + v.c3 ^ 2 + v.c4 ^ 2 + v.c5 ^ 2

def V6.norm (v : V6) : ℝ := Real.sqrt v.normSq

def V6.zero : V6 := ⟨0, 0, 0, 0, 0, 0⟩

/-- `generic_pose_ln` (optima_3d_pose.rs, lines 55-87): the SE(3)
logarithm of a translation plus unit-quaternion rotation, with the
source's small-angle Taylor branches. -/
def genericPoseLn (translation : V3) (rotation : Quat) : V6 :=
  let h_v : V3 := rotation.vecPart
  let s : ℝ := h_v.norm
  let c : ℝ := rotation.w
  let phi : ℝ := atan2 s c
  let a : ℝ := if 0 < s then phi / s else 0
  let rot_vec_diff : V3 := V3.smul a h_v
  let mu_r : ℝ :=
    if s < 1e-14 then 1 - phi ^ 2 / 3 - phi ^ 4 / 45 else (c * phi) / s
  let mu_d : ℝ :=
    if phi < 1e-14 then 1 / 3 + phi ^ 2 / 45 + 2 * phi ^ 4 / 945
    else (1 - mu_r) / phi ^ 2
  let tmp : V3 := ⟨translation.x / 2, translation.y / 2, translation.z / 2⟩
  let translation_diff : V3 :=
    V3.add (V3.add (V3.smul (mu_d * V3.dot tmp rot_vec_diff) rot_vec_diff)
        (V3.smul mu_r tmp))
      (V3.cross tmp rot_vec_diff)
  ⟨rot_vec_diff.x, rot_vec_diff.y, rot_vec_diff.z,
   translation_diff.x, translation_diff.y, translation_diff.z⟩

/-- `generic_pose_exp` (optima_3d_pose.rs, lines 89-116): the SE(3)
exponential of a 6-vector twist, with the source's small-angle Taylor
branch; the rotation goes through `UnitQuaternion::from_quaternion`,
i.e. is normalized. -/
def genericPoseExp (ln_vec : V6) : V3 × Quat :=
  let w : V3 := ⟨ln_vec.c0, ln_vec.c1, ln_vec.c2⟩
  let v : V3 := ⟨ln_vec.c3, ln_vec.c4, ln_vec.c5⟩
  let phi : ℝ := w.norm
  let s : ℝ := Real.sin phi
  let c : ℝ := Real.cos phi
  let gamma : ℝ := V3.dot w v
  let mu_r : ℝ :=
    if phi < 1e-8 then 1 - phi ^ 2 / 6 + phi ^ 4 / 120 else s / phi
  let mu_d : ℝ :=
    if phi < 1e-8 then 4 / 3 - 4 * phi ^ 2 / 15 + 8 * phi ^ 4 / 315
    else (2 - c * (2 * mu_r)) / phi ^ 2
  let h_v : V3 := V3.smul mu_r w
  let quat_ : Quat := ⟨c, h_v.x, h_v.y, h_v.z⟩
  let rotation : Quat := quat_.normalize
  let translation : V3 :=
    V3.add (V3.add (V3.smul 2 (V3.smul mu_r (V3.cross h_v v)))
        (V3.smul (c * 2 * mu_r) v))
      (V3.smul (mu_d * gamma) w)
  (translation, rotation)

/-- The `ImplicitDualQuaternion<T>` pose representation: a raw 3-vector
translation paired with a (unit) quaternion rotation. -/
structure IDQ where
  translation : V3
  rotation : Quat

/-- `ImplicitDualQuaternion::ln`. -/
def IDQ.ln (p : IDQ) : V6 := genericPoseLn p.translation p.rotation

/-- `ImplicitDualQuaternion::exp`. -/
def IDQ.exp (ln_vec : V6) : IDQ :=
  ⟨(genericPoseExp ln_vec).1, (genericPoseExp ln_vec).2⟩

/-- Modelled from the spec: `UnitQuaternion::from_scaled_axis` of the
external rotation capability (scaled-axis construction, spec §6 and
glossary): rotation by angle `‖v‖` about axis `v/‖v‖`, the identity
rotation for `v = 0`. -/
def fromScaledAxis (v : V3) : Quat :=
  let n : ℝ := v.norm
  if n = 0 then Quat.one
  else ⟨Real.cos (n / 2), Real.sin (n / 2) * (v.x / n),
        Real.sin (n / 2) * (v.y / n), Real.sin (n / 2) * (v.z / n)⟩

/-- Modelled from the spec: scaled-axis extraction
(`UnitQuaternion::scaled_axis` of the external rotation capability,
spec §6 and glossary): the rotation angle `2·arccos |w|` (canonical
angle in `[0, π]`) times the unit rotation axis, the axis being the
normalized vector part negated when the scalar part is negative; zero
when the vector part vanishes. -/
def Quat.scaledAxis (q : Quat) : V3 :=
  let s : ℝ := q.vecPart.norm
  if s = 0 then V3.zero
  else
    let angle : ℝ := 2 * Real.arccos |q.w|
    if 0 ≤ q.w then V3.smul (angle / s) q.vecPart
    else V3.smul (-(angle / s)) q.vecPart

/-- `ImplicitDualQuaternion::from_translation_and_rotation`: the incoming
rotation is converted through its scaled axis. -/
def IDQ.fromTranslationAndRotation (t : V3) (r : Quat) : IDQ :=
  ⟨t, fromScaledAxis r.scaledAxis⟩

/-- `ImplicitDualQuaternion::identity` builds the pose from the zero
translation and the rotation constructor for the zero scaled axis. -/
def IDQ.identity : IDQ := ⟨V3.zero, fromScaledAxis V3.zero⟩

/-- `ImplicitDualQuaternion::update_translation`. -/
def IDQ.updateTranslation (p : IDQ) (t : V3) : IDQ := ⟨t, p.rotation⟩

/-- `ImplicitDualQuaternion::update_rotation_constructor`, for the
scaled-axis-array rotation constructor used by the source
(`[T; 3]` constructs `UnitQuaternion::from_scaled_axis`). -/
def IDQ.updateRotationConstructor (p : IDQ) (sa : V3) : IDQ :=
  ⟨p.translation, fromScaledAxis sa⟩

/-- `ImplicitDualQuaternion::update_rotation_native`. -/
def IDQ.updateRotationNative (p : IDQ) (r : Quat) : IDQ := ⟨p.translation, r⟩

/-- `ImplicitDualQuaternion::update_rotation_direct`: converts any
rotation through its scaled axis. -/
def IDQ.updateRotationDirect (p : IDQ) (r : Quat) : IDQ :=
  ⟨p.translation, fromScaledAxis r.scaledAxis⟩

/-- `ImplicitDualQuaternion::mul`: `q1·q2` on rotations,
`q1·t2 + t1` on translations. -/
def IDQ.mul (p other : IDQ) : IDQ :=
  ⟨V3.add (p.rotation.act other.translation) p.translation,
   Quat.mul p.rotation other.rotation⟩

/-- `ImplicitDualQuaternion::inverse`: `(q⁻¹, q⁻¹·(−t))`, the unit
quaternion inverse being the conjugate. -/
def IDQ.inverse (p : IDQ) : IDQ :=
  ⟨p.rotation.conj.act p.translation.neg, p.rotation.conj⟩

/-- `ImplicitDualQuaternion::displacement`. -/
def IDQ.displacement (p other : IDQ) : IDQ := IDQ.mul p.inverse other

/-- `ImplicitDualQuaternion::dis`: norm of the logarithm of the
displacement. -/
def IDQ.dis (p other : IDQ) : ℝ := (p.displacement other).ln.norm

/-- Modelled from the spec: spherical interpolation of the external
rotation capability (`UnitQuaternion::slerp`, spec §4.1 and §6):
`(sin((1−t)Ω)·q1 + sin(tΩ)·q2)/sin Ω` with `cos Ω` the 4-dimensional
dot product of the quaternions, falling back to `q1` in the degenerate
configuration `sin Ω = 0`. -/
def slerpModel (q1 q2 : Quat) (t : ℝ) : Quat :=
  let d : ℝ := q1.w * q2.w + q1.x * q2.x + q1.y * q2.y + q1.z * q2.z
  if 1 - d ^ 2 = 0 then q1
  else
    let omega : ℝ := Real.arccos d
    let so : ℝ := Real.sqrt (1 - d ^ 2)
    let a : Quat := Quat.smul (Real.sin ((1 - t) * omega) / so) q1
    let b : Quat := Quat.smul (Real.sin (t * omega) / so) q2
    ⟨a.w + b.w, a.x + b.x, a.y + b.y, a.z + b.z⟩

/-- `ImplicitDualQuaternion::interpolate`: slerp on the rotation, linear
interpolation on the translation. -/
def IDQ.interpolate (p dst : IDQ) (t : ℝ) : IDQ :=
  ⟨V3.add (V3.smul (1 - t) p.translation) (V3.smul t dst.translation),
   slerpModel p.rotation dst.rotation t⟩

/-- The `nalgebra::Isometry3<T>` pose representation, modelled (like the
source's use of it) as a translation vector plus a unit-quaternion
rotation. -/
structure Iso where
  translation : V3
  rotation : Quat

/-- Modelled from the spec: `Isometry3::mul` delegates to `nalgebra`'s
native isometry composition (`self * other`): rotations compose, the
right translation is rotated by the left rotation and added. -/
def Iso.mul (p other : Iso) : Iso :=
  ⟨V3.add (p.rotation.act other.translation) p.translation,
   Quat.mul p.rotation other.rotation⟩

/-- Modelled from the spec: `Isometry3::inverse` delegates to `nalgebra`'s
native isometry inverse: conjugate rotation, negated-and-rotated
translation. -/
def Iso.inverse (p : Iso) : Iso :=
  ⟨p.rotation.conj.act p.translation.neg, p.rotation.conj⟩

/-- `Isometry3::displacement`: `self.inverse() * other`. -/
def Iso.displacement (p other : Iso) : Iso := Iso.mul p.inverse other

/-- `Isometry3::dis`: `generic_pose_ln` of the displacement's parts,
then the norm. -/
def Iso.dis (p other : Iso) : ℝ :=
  (genericPoseLn (p.displacement other).translation
    (p.displacement other).rotation).norm

/-- `Isometry3::interpolate` delegates to `nalgebra`'s `lerp_slerp`:
linear interpolation of the translation, slerp of the rotation. -/
def Iso.interpolate (p dst : Iso) (t : ℝ) : Iso :=
  ⟨V3.add (V3.smul (1 - t) p.translation) (V3.smul t dst.translation),
   slerpModel p.rotation dst.rotation t⟩

/-- `Isometry3::identity` (same constructor path as the dual-quaternion
representation). -/
def Iso.identity : Iso := ⟨V3.zero, fromScaledAxis V3.zero⟩

/-- `o3d_pose_custom_serialize` (lines 298-315): the 6-element wire
encoding `[tx, ty, tz, rx, ry, rz]`, the last three being the rotation's
scaled axis (`to_constant` is the identity on the real-number scalar
model). -/
def o3dPoseCustomSerialize (p : IDQ) : List ℝ :=
  [p.translation.x, p.translation.y, p.translation.z,
   p.rotation.scaledAxis.x, p.rotation.scaledAxis.y, p.rotation.scaledAxis.z]

/-- Outcome of running the deserializer: a decoded pose, a decoding
error reported through the format, or a Rust panic (from `expect`). -/
inductive DeserOutcome where
  | ok (p : IDQ)
  | err
  | panic

/-- `O3dPoseMyVisitor::visit_seq` (lines 328-350): six `next_element`
calls, each double-`expect`ed.  When the sequence is exhausted,
`next_element` yields `Ok(None)` and the second `expect` panics; with six
elements available the pose is rebuilt through
`from_scaled_axis_of_rotation` and `from_translation_and_rotation`. -/
def visitSeqModel (input : List ℝ) : DeserOutcome :=
  match input with
  | x :: y :: z :: rx :: ry :: rz :: _ =>
      DeserOutcome.ok (IDQ.fromTranslationAndRotation ⟨x, y, z⟩
        (fromScaledAxis ⟨rx, ry, rz⟩))
  | _ => DeserOutcome.panic

/-- `o3d_pose_custom_deserialize` (lines 352-357):
`deserializer.deserialize_tuple(6, visitor)` for a self-describing
format: the visitor runs on the input sequence; if it succeeds but the
input holds more than the 6 consumed elements, the format reports a
decoding error for the trailing elements. -/
def o3dPoseCustomDeserialize (input : List ℝ) : DeserOutcome :=
  match visitSeqModel input with
  | DeserOutcome.ok p =>
      if input.length = 6 then DeserOutcome.ok p else DeserOutcome.err
  | r => r

/-! ### Basic lemmas about the embedded data types -/

theorem V3.ext3 (a b : V3) (hx : a.x = b.x) (hy : a.y = b.y)
    (hz : a.z = b.z) : a = b := by
  cases a; cases b; simp_all

theorem Quat.ext4 (a b : Quat) (hw : a.w = b.w) (hx : a.x = b.x)
    (hy : a.y = b.y) (hz : a.z = b.z) : a = b := by
  cases a; cases b; simp_all

theorem V6.ext6 (a b : V6) (h0 : a.c0 = b.c0) (h1 : a.c1 = b.c1)
    (h2 : a.c2 = b.c2) (h3 : a.c3 = b.c3) (h4 : a.c4 = b.c4)
    (h5 : a.c5 = b.c5) : a = b := by
  cases a; cases b; simp_all

theorem V3.normSq_nonneg (a : V3) : 0 ≤ a.normSq := by
  unfold V3.normSq; positivity

theorem V3.norm_nonneg (a : V3) : 0 ≤ a.norm := Real.sqrt_nonneg _

theorem V3.sq_norm (a : V3) : a.norm ^ 2 = a.normSq :=
  Real.sq_sqrt a.normSq_nonneg

theorem V3.norm_eq_zero_iff (a : V3) : a.norm = 0 ↔ a = V3.zero := by
  unfold V3.norm
  rw [Real.sqrt_eq_zero a.normSq_nonneg]
  unfold V3.normSq V3.zero
  constructor
  · intro h
    have hx : a.x = 0 := by nlinarith [sq_nonneg a.x, sq_nonneg a.y, sq_nonneg a.z]
    have hy : a.y = 0 := by nlinarith [sq_nonneg a.x, sq_nonneg a.y, sq_nonneg a.z]
    have hz : a.z = 0 := by nlinarith [sq_nonneg a.x, sq_nonneg a.y, sq_nonneg a.z]
    exact V3.ext3 _ _ hx hy hz
  · intro h
    rw [h]; norm_num

theorem V3.abs_comp_le_norm (a : V3) :
    |a.x| ≤ a.norm ∧ |a.y| ≤ a.norm ∧ |a.z| ≤ a.norm := by
  have h0 := a.normSq_nonneg
  refine ⟨?_, ?_, ?_⟩ <;>
  · rw [← Real.sqrt_sq_eq_abs]
    apply Real.sqrt_le_sqrt
    unfold V3.normSq
    nlinarith [sq_nonneg a.x, sq_nonneg a.y, sq_nonneg a.z]

theorem Quat.normSq_nonneg_q (q : Quat) : 0 ≤ q.normSq := by
  unfold Quat.normSq; positivity

theorem Quat.sq_norm_q (q : Quat) : q.norm ^ 2 = q.normSq :=
  Real.sq_sqrt q.normSq_nonneg_q

theorem Quat.norm_of_unit {q : Quat} (h : q.normSq = 1) : q.norm = 1 := by
  unfold Quat.norm
  rw [h, Real.sqrt_one]

/-- Normalizing a quaternion of unit norm changes nothing. -/
theorem Quat.normalize_of_unit {q : Quat} (h : q.normSq = 1) :
    q.normalize = q := by
  unfold Quat.normalize
  rw [Quat.norm_of_unit h]
  apply Quat.ext4 <;> simp [Quat.smul]

/-- Normalizing any quaternion of positive squared norm yields unit
squared norm. -/
theorem Quat.normSq_normalize {q : Quat} (h : 0 < q.normSq) :
    q.normalize.normSq = 1 := by
  have hn : q.norm ^ 2 = q.normSq := q.sq_norm_q
  have hnpos : 0 < q.norm := by
    have := Real.sqrt_pos.mpr h
    exact this
  unfold Quat.normalize Quat.smul Quat.normSq
  unfold Quat.normSq at hn
  field_simp
  nlinarith [hn]

/-! ### Facts about `atan2` on the unit circle -/

theorem atan2_nonneg {s c : ℝ} (hs : 0 ≤ s) : 0 ≤ atan2 s c :=
  Complex.arg_nonneg_iff.mpr hs

theorem atan2_le_pi (s c : ℝ) : atan2 s c ≤ Real.pi := by
  unfold atan2; exact Complex.arg_le_pi _

theorem complexMk_abs_one {s c : ℝ} (h : c ^ 2 + s ^ 2 = 1) :
    Complex.abs ⟨c, s⟩ = 1 := by
  rw [Complex.abs_apply, Complex.normSq_mk]
  rw [show c * c + s * s = 1 by nlinarith]
  exact Real.sqrt_one

theorem cos_atan2 {s c : ℝ} (h : c ^ 2 + s ^ 2 = 1) :
    Real.cos (atan2 s c) = c := by
  unfold atan2
  have habs := complexMk_abs_one h
  have hne : (⟨c, s⟩ : ℂ) ≠ 0 := by
    intro h0
    rw [h0] at habs
    simp at habs
  rw [Complex.cos_arg hne, habs]
  simp

theorem sin_atan2 {s c : ℝ} (h : c ^ 2 + s ^ 2 = 1) :
    Real.sin (atan2 s c) = s := by
  unfold atan2
  rw [Complex.sin_arg, complexMk_abs_one h]
  simp

theorem sin_le_self {x : ℝ} (h : 0 ≤ x) : Real.sin x ≤ x := by
  rcases eq_or_lt_of_le h with h0 | h0
  · rw [← h0]; simp
  · exact le_of_lt (Real.sin_lt h0)

/-- On the unit circle with nonnegative sine, the angle bounds the sine
from above: `s ≤ atan2 s c`. -/
theorem le_atan2 {s c : ℝ} (h : c ^ 2 + s ^ 2 = 1) (hs : 0 ≤ s) :
    s ≤ atan2 s c := by
  have h1 : Real.sin (atan2 s c) = s := sin_atan2 h
  have h2 : 0 ≤ atan2 s c := atan2_nonneg hs
  calc s = Real.sin (atan2 s c) := h1.symm
    _ ≤ atan2 s c := sin_le_self h2

/-! ### The specification's prescription of the Lie-algebra kernel -/

/-- The SE(3) logarithm exactly as the specification prescribes it
(spec §4.2, steps 1-4), written from the spec's words for comparison
with the source's `genericPoseLn`. -/
def specPoseLn (p : V3) (q : Quat) : V6 :=
  let h : V3 := q.vecPart
  let s : ℝ := h.norm
  let phi : ℝ := atan2 s q.w
  let rotgen : V3 := if 0 < s then V3.smul (phi / s) h else V3.zero
  let mu_r : ℝ :=
    if s < 1e-14 then 1 - phi ^ 2 / 3 - phi ^ 4 / 45 else (q.w * phi) / s
  let mu_d : ℝ :=
    if phi < 1e-14 then 1 / 3 + phi ^ 2 / 45 + 2 * phi ^ 4 / 945
    else (1 - mu_r) / phi ^ 2
  let halfp : V3 := V3.smul (1 / 2) p
  let trans : V3 :=
    V3.add (V3.add (V3.smul (mu_d * V3.dot halfp rotgen) rotgen)
        (V3.smul mu_r halfp))
      (V3.cross halfp rotgen)
  ⟨rotgen.x, rotgen.y, rotgen.z, trans.x, trans.y, trans.z⟩

/-- The SE(3) exponential exactly as the specification prescribes it
(spec §4.2), written from the spec's words for comparison with the
source's `genericPoseExp`. -/
def specPoseExp (twist : V6) : V3 × Quat :=
  let w : V3 := ⟨twist.c0, twist.c1, twist.c2⟩
  let v : V3 := ⟨twist.c3, twist.c4, twist.c5⟩
  let phi : ℝ := w.norm
  let s : ℝ := Real.sin phi
  let c : ℝ := Real.cos phi
  let mu_r : ℝ :=
    if phi < 1e-8 then 1 - phi ^ 2 / 6 + phi ^ 4 / 120 else s / phi
  let mu_d : ℝ :=
    if phi < 1e-8 then 4 / 3 - 4 * phi ^ 2 / 15 + 8 * phi ^ 4 / 315
    else (2 - 2 * c * mu_r) / phi ^ 2
  let h : V3 := V3.smul mu_r w
  let rotation : Quat := Quat.normalize ⟨c, h.x, h.y, h.z⟩
  let translation : V3 :=
    V3.add (V3.add (V3.smul (2 * mu_r) (V3.cross h v))
        (V3.smul (2 * c * mu_r) v))
      (V3.smul (mu_d * V3.dot w v) w)
  (translation, rotation)

/-- C2: `generic_pose_ln` computes the twist exactly as the spec's
algorithm prescribes — same rotation generator, same `μ_r`/`μ_d`
branch conditions and values, same translation part. -/
theorem genericPoseLn_follows_spec (p : V3) (q : Quat) :
    genericPoseLn p q = specPoseLn p q := by
  unfold genericPoseLn specPoseLn
  by_cases hs : 0 < (Quat.vecPart q).norm <;>
    simp only [hs, if_true, if_false, reduceIte] <;>
    apply V6.ext6 <;>
    simp only [V3.smul, V3.add, V3.dot, V3.cross, V3.zero] <;>
    ring

/-- C3: `generic_pose_exp` computes the pose exactly as the spec's
algorithm prescribes — same split of the twist, same Taylor branch at
`φ < 1e-8` for both coefficients, same normalized quaternion and
translation reconstruction. -/
theorem genericPoseExp_follows_spec (twist : V6) :
    genericPoseExp twist = specPoseExp twist := by
  unfold genericPoseExp specPoseExp
  by_cases hphi : (V3.mk twist.c0 twist.c1 twist.c2).norm < 1e-8
  all_goals simp only [hphi, if_true, if_false, reduceIte]
  all_goals refine Prod.ext ?_ ?_
  all_goals first
    | (apply congrArg Quat.normalize
       apply Quat.ext4 <;> simp only [V3.smul] <;> ring)
    | (apply V3.ext3 <;> simp only [V3.smul, V3.add, V3.dot, V3.cross] <;> ring)

/-! ### C6: malformed serialized input -/

/-- C6: with an element count other than 6, the deserializer never
produces a pose — but on a short input it panics (the `expect("error")`
on the absent element) instead of returning a decoding error; only a
long input yields a decoding error from the format. -/
theorem deserialize_wrong_count_never_ok :
    o3dPoseCustomDeserialize [1, 2, 3, 4, 5] = DeserOutcome.panic ∧
    o3dPoseCustomDeserialize [1, 2, 3, 4, 5, 6, 7] = DeserOutcome.err ∧
    (∀ (l : List ℝ), l.length ≠ 6 → ∀ p : IDQ,
      o3dPoseCustomDeserialize l ≠ DeserOutcome.ok p) := by
  refine ⟨rfl, rfl, ?_⟩
  intro l hlen p
  rcases l with _ | ⟨a, _ | ⟨b, _ | ⟨c, _ | ⟨d, _ | ⟨e, _ | ⟨f, rest⟩⟩⟩⟩⟩⟩ <;>
    simp_all [o3dPoseCustomDeserialize, visitSeqModel]

/-- Witness for the hypothesis-carrying conjunct of
`deserialize_wrong_count_never_ok`: the 5-element input. -/
theorem deserialize_wrong_count_never_ok_witness :
    ([(1 : ℝ), 2, 3, 4, 5].length ≠ 6) ∧
    o3dPoseCustomDeserialize [1, 2, 3, 4, 5] ≠ DeserOutcome.ok IDQ.identity :=
  ⟨by norm_num,
   deserialize_wrong_count_never_ok.2.2 [1, 2, 3, 4, 5] (by norm_num)
     IDQ.identity⟩

/-! ### Quaternion algebra helpers -/

theorem IDQ.ext2 (a b : IDQ) (ht : a.translation = b.translation)
    (hr : a.rotation = b.rotation) : a = b := by
  cases a; cases b; simp_all

theorem Iso.ext2_iso (a b : Iso) (ht : a.translation = b.translation)
    (hr : a.rotation = b.rotation) : a = b := by
  cases a; cases b; simp_all

theorem Quat.conj_normSq (q : Quat) : q.conj.normSq = q.normSq := by
  unfold Quat.conj Quat.normSq; ring

theorem Quat.normSq_mul (a b : Quat) :
    (Quat.mul a b).normSq = a.normSq * b.normSq := by
  unfold Quat.mul Quat.normSq; ring

theorem Quat.mul_conj_self (q : Quat) :
    Quat.mul q q.conj = ⟨q.normSq, 0, 0, 0⟩ := by
  unfold Quat.mul Quat.conj Quat.normSq
  apply Quat.ext4 <;> simp only <;> ring

theorem Quat.conj_mul_self (q : Quat) :
    Quat.mul q.conj q = ⟨q.normSq, 0, 0, 0⟩ := by
  unfold Quat.mul Quat.conj Quat.normSq
  apply Quat.ext4 <;> simp only <;> ring

theorem Quat.act_act (a b : Quat) (v : V3) :
    a.act (b.act v) = (Quat.mul a b).act v := by
  unfold Quat.act Quat.mul Quat.conj Quat.vecPart
  apply V3.ext3 <;> simp only <;> ring

theorem Quat.act_scalarQuat (k : ℝ) (v : V3) :
    Quat.act ⟨k, 0, 0, 0⟩ v = V3.smul (k ^ 2) v := by
  unfold Quat.act Quat.mul Quat.conj Quat.vecPart V3.smul
  apply V3.ext3 <;> simp only <;> ring

theorem Quat.act_neg_vec (q : Quat) (v : V3) :
    q.act v.neg = (q.act v).neg := by
  unfold Quat.act Quat.mul Quat.conj Quat.vecPart V3.neg
  apply V3.ext3 <;> simp only <;> ring

theorem fromScaledAxis_zero : fromScaledAxis V3.zero = Quat.one := by
  unfold fromScaledAxis V3.norm V3.normSq V3.zero
  norm_num

theorem IDQ.identity_eq : IDQ.identity = ⟨V3.zero, Quat.one⟩ := by
  unfold IDQ.identity
  rw [fromScaledAxis_zero]

theorem Iso.identity_eq_iso : Iso.identity = ⟨V3.zero, Quat.one⟩ := by
  unfold Iso.identity
  rw [fromScaledAxis_zero]

/-! ### C5: the inverse law -/

/-- C5: for any pose with unit rotation and translation components in
`[-100, 100]`, `p.mul(p.inverse())` is exactly the identity pose (real
arithmetic has no rounding, so "within tolerance" holds with error
zero), in both representations. -/
theorem mul_inverse_eq_identity (p : IDQ) (r : Iso)
    (hp : p.rotation.normSq = 1)
    (hr : r.rotation.normSq = 1)
    (hpb : |p.translation.x| ≤ 100 ∧ |p.translation.y| ≤ 100 ∧
      |p.translation.z| ≤ 100)
    (hrb : |r.translation.x| ≤ 100 ∧ |r.translation.y| ≤ 100 ∧
      |r.translation.z| ≤ 100) :
    IDQ.mul p p.inverse = IDQ.identity ∧ Iso.mul r r.inverse = Iso.identity := by
  constructor
  · rw [IDQ.identity_eq]
    unfold IDQ.mul IDQ.inverse
    refine IDQ.ext2 _ _ ?_ ?_
    · rw [Quat.act_act, Quat.mul_conj_self, hp, Quat.act_scalarQuat]
      unfold V3.add V3.neg V3.smul V3.zero
      apply V3.ext3 <;> simp only <;> ring
    · rw [Quat.mul_conj_self, hp]
      rfl
  · rw [Iso.identity_eq_iso]
    unfold Iso.mul Iso.inverse
    refine Iso.ext2_iso _ _ ?_ ?_
    · rw [Quat.act_act, Quat.mul_conj_self, hr, Quat.act_scalarQuat]
      unfold V3.add V3.neg V3.smul V3.zero
      apply V3.ext3 <;> simp only <;> ring
    · rw [Quat.mul_conj_self, hr]
      rfl

/-- Witness for `mul_inverse_eq_identity`: translation `(1, 2, 3)` with
a unit rotation about no axis. -/
theorem mul_inverse_eq_identity_witness :
    (Quat.normSq ⟨1, 0, 0, 0⟩ = 1) ∧
    IDQ.mul ⟨⟨1, 2, 3⟩, ⟨1, 0, 0, 0⟩⟩ (IDQ.inverse ⟨⟨1, 2, 3⟩, ⟨1, 0, 0, 0⟩⟩) =
      IDQ.identity ∧
    Iso.mul ⟨⟨1, 2, 3⟩, ⟨1, 0, 0, 0⟩⟩ (Iso.inverse ⟨⟨1, 2, 3⟩, ⟨1, 0, 0, 0⟩⟩) =
      Iso.identity := by
  have hq : Quat.normSq ⟨1, 0, 0, 0⟩ = 1 := by unfold Quat.normSq; norm_num
  have hb : |(1 : ℝ)| ≤ 100 ∧ |(2 : ℝ)| ≤ 100 ∧ |(3 : ℝ)| ≤ 100 := by
    norm_num
  have h := mul_inverse_eq_identity ⟨⟨1, 2, 3⟩, ⟨1, 0, 0, 0⟩⟩
    ⟨⟨1, 2, 3⟩, ⟨1, 0, 0, 0⟩⟩ hq hq hb hb
  exact ⟨hq, h.1, h.2⟩

/-! ### C4: displacement and distance -/

theorem V6.norm_eq_zero_iff_v6 (v : V6) : v.norm = 0 ↔ v = V6.zero := by
  unfold V6.norm
  have hnn : 0 ≤ v.normSq := by unfold V6.normSq; positivity
  rw [Real.sqrt_eq_zero hnn]
  unfold V6.normSq V6.zero
  constructor
  · intro h
    have h0 : v.c0 = 0 := by nlinarith [sq_nonneg v.c0, sq_nonneg v.c1, sq_nonneg v.c2, sq_nonneg v.c3, sq_nonneg v.c4, sq_nonneg v.c5]
    have h1 : v.c1 = 0 := by nlinarith [sq_nonneg v.c0, sq_nonneg v.c1, sq_nonneg v.c2, sq_nonneg v.c3, sq_nonneg v.c4, sq_nonneg v.c5]
    have h2 : v.c2 = 0 := by nlinarith [sq_nonneg v.c0, sq_nonneg v.c1, sq_nonneg v.c2, sq_nonneg v.c3, sq_nonneg v.c4, sq_nonneg v.c5]
    have h3 : v.c3 = 0 := by nlinarith [sq_nonneg v.c0, sq_nonneg v.c1, sq_nonneg v.c2, sq_nonneg v.c3, sq_nonneg v.c4, sq_nonneg v.c5]
    have h4 : v.c4 = 0 := by nlinarith [sq_nonneg v.c0, sq_nonneg v.c1, sq_nonneg v.c2, sq_nonneg v.c3, sq_nonneg v.c4, sq_nonneg v.c5]
    have h5 : v.c5 = 0 := by nlinarith [sq_nonneg v.c0, sq_nonneg v.c1, sq_nonneg v.c2, sq_nonneg v.c3, sq_nonneg v.c4, sq_nonneg v.c5]
    exact V6.ext6 _ _ h0 h1 h2 h3 h4 h5
  · intro h
    rw [h]; norm_num

/-- Projection of the first twist component out of `genericPoseLn`. -/
theorem genericPoseLn_c0 (t : V3) (q : Quat) :
    (genericPoseLn t q).c0 =
      (if 0 < q.vecPart.norm then atan2 q.vecPart.norm q.w / q.vecPart.norm
       else 0) * q.x := rfl

theorem genericPoseLn_c1 (t : V3) (q : Quat) :
    (genericPoseLn t q).c1 =
      (if 0 < q.vecPart.norm then atan2 q.vecPart.norm q.w / q.vecPart.norm
       else 0) * q.y := rfl

theorem genericPoseLn_c2 (t : V3) (q : Quat) :
    (genericPoseLn t q).c2 =
      (if 0 < q.vecPart.norm then atan2 q.vecPart.norm q.w / q.vecPart.norm
       else 0) * q.z := rfl

/-- `generic_pose_ln` at a rotation with vanishing vector part: the
rotation generator is zero and the translation part is `μ_r`
(Taylor branch) times half the translation. -/
theorem genericPoseLn_scalar_quat (t : V3) (c : ℝ) :
    genericPoseLn t ⟨c, 0, 0, 0⟩ =
      ⟨0, 0, 0,
       (1 - atan2 0 c ^ 2 / 3 - atan2 0 c ^ 4 / 45) * (t.x / 2),
       (1 - atan2 0 c ^ 2 / 3 - atan2 0 c ^ 4 / 45) * (t.y / 2),
       (1 - atan2 0 c ^ 2 / 3 - atan2 0 c ^ 4 / 45) * (t.z / 2)⟩ := by
  unfold genericPoseLn Quat.vecPart V3.norm V3.normSq
  norm_num [Real.sqrt_zero, V3.smul, V3.add, V3.dot, V3.cross]

theorem atan2_zero_one : atan2 0 1 = 0 := by
  unfold atan2
  rw [Complex.arg_eq_zero_iff]
  constructor <;> norm_num

theorem atan2_zero_negOne : atan2 0 (-1) = Real.pi := by
  unfold atan2
  rw [Complex.arg_eq_pi_iff]
  constructor <;> norm_num

theorem atan2_pos_of_sin_pos {s c : ℝ} (h : c ^ 2 + s ^ 2 = 1)
    (hs : 0 < s) : 0 < atan2 s c := by
  have h1 : Real.sin (atan2 s c) = s := sin_atan2 h
  have h2 : 0 ≤ atan2 s c := atan2_nonneg (le_of_lt hs)
  rcases eq_or_lt_of_le h2 with h3 | h3
  · exfalso
    rw [← h3, Real.sin_zero] at h1
    linarith
  · exact h3

/-- The unit-circle relation between the scalar part and the vector-part
norm of a unit quaternion. -/
theorem unit_circle_of_normSq {q : Quat} (hq : q.normSq = 1) :
    q.w ^ 2 + q.vecPart.norm ^ 2 = 1 := by
  rw [V3.sq_norm]
  unfold V3.normSq Quat.vecPart
  unfold Quat.normSq at hq
  simp only
  linarith

/-- A twist whose rotation generator vanishes and whose translation part
is a nonzero multiple of half the translation has zero norm exactly when
the translation vanishes. -/
theorem scaledTwist_norm_zero_iff (mu : ℝ) (hmu : mu ≠ 0) (t : V3) :
    V6.norm ⟨0, 0, 0, mu * (t.x / 2), mu * (t.y / 2), mu * (t.z / 2)⟩ = 0 ↔
      t = V3.zero := by
  rw [V6.norm_eq_zero_iff_v6]
  constructor
  · intro h
    have h3 := congrArg V6.c3 h
    have h4 := congrArg V6.c4 h
    have h5 := congrArg V6.c5 h
    simp only [V6.zero] at h3 h4 h5
    have hx : t.x = 0 := by
      have := (mul_eq_zero.mp h3).resolve_left hmu
      linarith
    have hy : t.y = 0 := by
      have := (mul_eq_zero.mp h4).resolve_left hmu
      linarith
    have hz : t.z = 0 := by
      have := (mul_eq_zero.mp h5).resolve_left hmu
      linarith
    apply V3.ext3 <;> simp [V3.zero, hx, hy, hz]
  · intro h
    rw [h]
    unfold V3.zero V6.zero
    norm_num

/-- The norm of the logarithm of a unit-rotation pose vanishes exactly
when the pose is numerically the identity: zero translation and
rotation quaternion `±1`. -/
theorem genericPoseLn_norm_eq_zero_iff (t : V3) (q : Quat)
    (hq : q.normSq = 1) :
    (genericPoseLn t q).norm = 0 ↔
      (t = V3.zero ∧ (q = Quat.one ∨ q = Quat.neg Quat.one)) := by
  have hcs : q.w ^ 2 + q.vecPart.norm ^ 2 = 1 := unit_circle_of_normSq hq
  by_cases hs : 0 < q.vecPart.norm
  · -- positive vector part: both sides are false
    have hphi : 0 < atan2 q.vecPart.norm q.w := atan2_pos_of_sin_pos hcs hs
    have ha : atan2 q.vecPart.norm q.w / q.vecPart.norm ≠ 0 :=
      ne_of_gt (div_pos hphi hs)
    constructor
    · intro h
      exfalso
      rw [V6.norm_eq_zero_iff_v6] at h
      have h0 : (genericPoseLn t q).c0 = 0 := by rw [h]; rfl
      have h1 : (genericPoseLn t q).c1 = 0 := by rw [h]; rfl
      have h2 : (genericPoseLn t q).c2 = 0 := by rw [h]; rfl
      rw [genericPoseLn_c0, if_pos hs] at h0
      rw [genericPoseLn_c1, if_pos hs] at h1
      rw [genericPoseLn_c2, if_pos hs] at h2
      have hx : q.x = 0 := (mul_eq_zero.mp h0).resolve_left ha
      have hy : q.y = 0 := (mul_eq_zero.mp h1).resolve_left ha
      have hz : q.z = 0 := (mul_eq_zero.mp h2).resolve_left ha
      have : q.vecPart.norm = 0 := by
        rw [V3.norm_eq_zero_iff]
        unfold Quat.vecPart V3.zero
        exact V3.ext3 _ _ hx hy hz
      linarith
    · rintro ⟨ht, hrot | hrot⟩ <;>
      · exfalso
        rw [hrot] at hs
        norm_num [Quat.one, Quat.neg, Quat.vecPart, V3.norm, V3.normSq] at hs
  · -- zero vector part: the rotation is a scalar quaternion `±1`
    have hs0 : q.vecPart.norm = 0 := le_antisymm (not_lt.mp hs) (V3.norm_nonneg _)
    have hvec : q.vecPart = V3.zero := (V3.norm_eq_zero_iff _).mp hs0
    obtain ⟨w, x, y, z⟩ := q
    unfold Quat.vecPart at hvec
    have hx : x = 0 := congrArg V3.x hvec
    have hy : y = 0 := congrArg V3.y hvec
    have hz : z = 0 := congrArg V3.z hvec
    subst hx; subst hy; subst hz
    unfold Quat.normSq at hq
    simp only at hq
    have hw : w = 1 ∨ w = -1 := by
      have hfac : (w - 1) * (w + 1) = 0 := by nlinarith
      rcases mul_eq_zero.mp hfac with h | h
      · left; linarith
      · right; linarith
    rw [genericPoseLn_scalar_quat]
    rcases hw with hw | hw <;> subst hw
    · rw [atan2_zero_one]
      have hmu : (1 : ℝ) - 0 ^ 2 / 3 - 0 ^ 4 / 45 ≠ 0 := by norm_num
      rw [scaledTwist_norm_zero_iff _ hmu]
      constructor
      · intro h
        exact ⟨h, Or.inl rfl⟩
      · rintro ⟨h, _⟩
        exact h
    · rw [atan2_zero_negOne]
      have hmu : 1 - Real.pi ^ 2 / 3 - Real.pi ^ 4 / 45 ≠ 0 := by
        nlinarith [Real.pi_gt_three]
      rw [scaledTwist_norm_zero_iff _ hmu]
      constructor
      · intro h
        refine ⟨h, Or.inr ?_⟩
        unfold Quat.neg Quat.one
        apply Quat.ext4 <;> norm_num
      · rintro ⟨h, _⟩
        exact h

/-- Field-level bridge: the isometry representation carries the same
translation/rotation data, and its operations have the same bodies. -/
def isoToIDQ (r : Iso) : IDQ := ⟨r.translation, r.rotation⟩

theorem iso_dis_eq_idq_dis (r u : Iso) :
    Iso.dis r u = IDQ.dis (isoToIDQ r) (isoToIDQ u) := rfl

theorem iso_displacement_eq_idq_displacement (r u : Iso) :
    isoToIDQ (Iso.displacement r u) =
      IDQ.displacement (isoToIDQ r) (isoToIDQ u) := rfl

/-- The displacement of a unit-rotation pose from itself is exactly the
identity pose. -/
theorem IDQ.displacement_self (p : IDQ) (hp : p.rotation.normSq = 1) :
    IDQ.displacement p p = ⟨V3.zero, Quat.one⟩ := by
  unfold IDQ.displacement IDQ.mul IDQ.inverse
  refine IDQ.ext2 _ _ ?_ ?_
  · simp only
    rw [Quat.act_neg_vec]
    unfold V3.add V3.neg V3.zero
    apply V3.ext3 <;> simp only <;> ring
  · simp only
    rw [Quat.conj_mul_self, hp]
    rfl

/-- The rotation of a displacement of unit-rotation poses has unit
squared norm. -/
theorem IDQ.displacement_rotation_normSq (p q : IDQ)
    (hp : p.rotation.normSq = 1) (hq : q.rotation.normSq = 1) :
    (IDQ.displacement p q).rotation.normSq = 1 := by
  unfold IDQ.displacement IDQ.mul IDQ.inverse
  simp only
  rw [Quat.normSq_mul, Quat.conj_normSq, hp, hq]
  norm_num

/-- C4: in both representations, `displacement` is
`self.inverse().mul(other)`; `dis` is the (nonnegative) Euclidean norm
of the logarithm of the displacement; `dis p p = 0`; and `dis p q = 0`
precisely when the displacement is numerically the identity pose (zero
translation, rotation quaternion `±1`). -/
theorem displacement_dis_characterization (p q : IDQ) (r u : Iso)
    (hp : p.rotation.normSq = 1) (hq : q.rotation.normSq = 1)
    (hr : r.rotation.normSq = 1) (hu : u.rotation.normSq = 1) :
    IDQ.displacement p q = IDQ.mul p.inverse q ∧
    Iso.displacement r u = Iso.mul r.inverse u ∧
    IDQ.dis p q = (IDQ.displacement p q).ln.norm ∧
    Iso.dis r u = (genericPoseLn (Iso.displacement r u).translation
      (Iso.displacement r u).rotation).norm ∧
    0 ≤ IDQ.dis p q ∧ 0 ≤ Iso.dis r u ∧
    IDQ.dis p p = 0 ∧ Iso.dis r r = 0 ∧
    (IDQ.dis p q = 0 ↔ ((IDQ.displacement p q).translation = V3.zero ∧
      ((IDQ.displacement p q).rotation = Quat.one ∨
       (IDQ.displacement p q).rotation = Quat.neg Quat.one))) ∧
    (Iso.dis r u = 0 ↔ ((Iso.displacement r u).translation = V3.zero ∧
      ((Iso.displacement r u).rotation = Quat.one ∨
       (Iso.displacement r u).rotation = Quat.neg Quat.one))) := by
  have hdisS : IDQ.dis p p = 0 := by
    unfold IDQ.dis
    rw [IDQ.displacement_self p hp]
    unfold IDQ.ln
    simp only
    rw [show (Quat.one : Quat) = ⟨1, 0, 0, 0⟩ from rfl]
    rw [genericPoseLn_scalar_quat, atan2_zero_one]
    rw [V6.norm_eq_zero_iff_v6]
    unfold V3.zero V6.zero
    apply V6.ext6 <;> norm_num
  have hdisSiso : Iso.dis r r = 0 := by
    rw [iso_dis_eq_idq_dis]
    have : (isoToIDQ r).rotation.normSq = 1 := hr
    unfold IDQ.dis
    rw [IDQ.displacement_self _ this]
    unfold IDQ.ln
    simp only
    rw [show (Quat.one : Quat) = ⟨1, 0, 0, 0⟩ from rfl]
    rw [genericPoseLn_scalar_quat, atan2_zero_one]
    rw [V6.norm_eq_zero_iff_v6]
    unfold V3.zero V6.zero
    apply V6.ext6 <;> norm_num
  have hiff : IDQ.dis p q = 0 ↔
      ((IDQ.displacement p q).translation = V3.zero ∧
       ((IDQ.displacement p q).rotation = Quat.one ∨
        (IDQ.displacement p q).rotation = Quat.neg Quat.one)) := by
    unfold IDQ.dis IDQ.ln
    exact genericPoseLn_norm_eq_zero_iff _ _
      (IDQ.displacement_rotation_normSq p q hp hq)
  have hiffiso : Iso.dis r u = 0 ↔
      ((Iso.displacement r u).translation = V3.zero ∧
       ((Iso.displacement r u).rotation = Quat.one ∨
        (Iso.displacement r u).rotation = Quat.neg Quat.one)) := by
    rw [iso_dis_eq_idq_dis]
    unfold IDQ.dis IDQ.ln
    exact genericPoseLn_norm_eq_zero_iff _ _
      (IDQ.displacement_rotation_normSq (isoToIDQ r) (isoToIDQ u) hr hu)
  exact ⟨rfl, rfl, rfl, rfl, Real.sqrt_nonneg _, Real.sqrt_nonneg _,
    hdisS, hdisSiso, hiff, hiffiso⟩

/-- Witness for `displacement_dis_characterization`: translations
`(1, 2, 3)` and `(4, 5, 6)` with identity rotations. -/
theorem displacement_dis_characterization_witness :
    (Quat.normSq ⟨1, 0, 0, 0⟩ = 1) ∧
    IDQ.dis ⟨⟨1, 2, 3⟩, ⟨1, 0, 0, 0⟩⟩ ⟨⟨1, 2, 3⟩, ⟨1, 0, 0, 0⟩⟩ = 0 ∧
    (0 : ℝ) ≤ IDQ.dis ⟨⟨1, 2, 3⟩, ⟨1, 0, 0, 0⟩⟩ ⟨⟨4, 5, 6⟩, ⟨1, 0, 0, 0⟩⟩ := by
  have hq : Quat.normSq ⟨1, 0, 0, 0⟩ = 1 := by unfold Quat.normSq; norm_num
  have h := displacement_dis_characterization
    ⟨⟨1, 2, 3⟩, ⟨1, 0, 0, 0⟩⟩ ⟨⟨4, 5, 6⟩, ⟨1, 0, 0, 0⟩⟩
    ⟨⟨1, 2, 3⟩, ⟨1, 0, 0, 0⟩⟩ ⟨⟨4, 5, 6⟩, ⟨1, 0, 0, 0⟩⟩ hq hq hq hq
  exact ⟨hq, h.2.2.2.2.2.2.1, h.2.2.2.2.1⟩

/-! ### C10: distance between identity-rotation poses -/

/-- C10: for two poses that both carry the identity rotation, `dis` is
exactly half the Euclidean distance of the translations (the logarithm
halves the displacement translation when the rotation generator
vanishes). -/
theorem dis_identity_rotations (p q : IDQ)
    (hp : p.rotation = Quat.one) (hq : q.rotation = Quat.one) :
    IDQ.dis p q = (V3.sub q.translation p.translation).norm / 2 := by
  obtain ⟨t1, rot1⟩ := p
  obtain ⟨t2, rot2⟩ := q
  simp only at hp hq
  subst hp; subst hq
  have hd : IDQ.displacement ⟨t1, Quat.one⟩ ⟨t2, Quat.one⟩ =
      ⟨V3.sub t2 t1, ⟨1, 0, 0, 0⟩⟩ := by
    unfold IDQ.displacement IDQ.mul IDQ.inverse Quat.act Quat.conj Quat.mul
      Quat.vecPart Quat.one V3.neg V3.add V3.sub
    refine IDQ.ext2 _ _ ?_ ?_
    · apply V3.ext3 <;> simp only <;> ring
    · apply Quat.ext4 <;> simp only <;> ring
  unfold IDQ.dis
  rw [hd]
  unfold IDQ.ln
  simp only
  rw [genericPoseLn_scalar_quat, atan2_zero_one]
  unfold V6.norm V6.normSq V3.norm V3.normSq V3.sub
  simp only
  rw [show (0 : ℝ) ^ 2 + 0 ^ 2 + 0 ^ 2 +
      ((1 - 0 ^ 2 / 3 - 0 ^ 4 / 45) * ((t2.x - t1.x) / 2)) ^ 2 +
      ((1 - 0 ^ 2 / 3 - 0 ^ 4 / 45) * ((t2.y - t1.y) / 2)) ^ 2 +
      ((1 - 0 ^ 2 / 3 - 0 ^ 4 / 45) * ((t2.z - t1.z) / 2)) ^ 2 =
      ((t2.x - t1.x) ^ 2 + (t2.y - t1.y) ^ 2 + (t2.z - t1.z) ^ 2) / 4 by ring]
  rw [show ((t2.x - t1.x) ^ 2 + (t2.y - t1.y) ^ 2 + (t2.z - t1.z) ^ 2) / 4 =
      ((t2.x - t1.x) ^ 2 + (t2.y - t1.y) ^ 2 + (t2.z - t1.z) ^ 2) / 2 ^ 2 by
    ring]
  rw [Real.sqrt_div (by positivity) ((2 : ℝ) ^ 2)]
  rw [Real.sqrt_sq (by norm_num : (0 : ℝ) ≤ 2)]

/-- Witness for `dis_identity_rotations`: translations `(1, 2, 3)` and
`(4, 5, 6)`. -/
theorem dis_identity_rotations_witness :
    IDQ.dis ⟨⟨1, 2, 3⟩, Quat.one⟩ ⟨⟨4, 5, 6⟩, Quat.one⟩ =
      (V3.sub ⟨4, 5, 6⟩ ⟨1, 2, 3⟩).norm / 2 :=
  dis_identity_rotations ⟨⟨1, 2, 3⟩, Quat.one⟩ ⟨⟨4, 5, 6⟩, Quat.one⟩ rfl rfl

/-! ### C8: interpolation -/

theorem quat_dot_sq_le_one {q1 q2 : Quat} (h1 : q1.normSq = 1)
    (h2 : q2.normSq = 1) :
    (q1.w * q2.w + q1.x * q2.x + q1.y * q2.y + q1.z * q2.z) ^ 2 ≤ 1 := by
  unfold Quat.normSq at h1 h2
  nlinarith [sq_nonneg (q2.w - (q1.w * q2.w + q1.x * q2.x + q1.y * q2.y + q1.z * q2.z) * q1.w), sq_nonneg (q2.x - (q1.w * q2.w + q1.x * q2.x + q1.y * q2.y + q1.z * q2.z) * q1.x), sq_nonneg (q2.y - (q1.w * q2.w + q1.x * q2.x + q1.y * q2.y + q1.z * q2.z) * q1.y), sq_nonneg (q2.z - (q1.w * q2.w + q1.x * q2.x + q1.y * q2.y + q1.z * q2.z) * q1.z)]

/-- Two unit quaternions with dot product `±1` are equal or opposite. -/
theorem quat_eq_or_neg_of_dot_sq_one {q1 q2 : Quat} (h1 : q1.normSq = 1)
    (h2 : q2.normSq = 1)
    (hd : 1 - (q1.w * q2.w + q1.x * q2.x + q1.y * q2.y + q1.z * q2.z) ^ 2 = 0) :
    q2 = q1 ∨ q2 = Quat.neg q1 := by
  unfold Quat.normSq at h1 h2
  set d : ℝ := q1.w * q2.w + q1.x * q2.x + q1.y * q2.y + q1.z * q2.z with hd_def
  have hswap : q1.w * q2.w + q1.x * q2.x + q1.y * q2.y + q1.z * q2.z = d :=
    hd_def.symm
  have hsum : (q2.w - d * q1.w) ^ 2 + (q2.x - d * q1.x) ^ 2 +
      (q2.y - d * q1.y) ^ 2 + (q2.z - d * q1.z) ^ 2 = 0 := by
    linear_combination d ^ 2 * h1 + h2 + (-2 * d) * hswap + hd
  clear_value d
  have hw : q2.w = d * q1.w := by
    have hz2 : (q2.w - d * q1.w) ^ 2 = 0 := by
      linarith [sq_nonneg (q2.w - d * q1.w), sq_nonneg (q2.x - d * q1.x), sq_nonneg (q2.y - d * q1.y), sq_nonneg (q2.z - d * q1.z)]
    have := sq_eq_zero_iff.mp hz2
    linarith
  have hx : q2.x = d * q1.x := by
    have hz2 : (q2.x - d * q1.x) ^ 2 = 0 := by
      linarith [sq_nonneg (q2.w - d * q1.w), sq_nonneg (q2.x - d * q1.x), sq_nonneg (q2.y - d * q1.y), sq_nonneg (q2.z - d * q1.z)]
    have := sq_eq_zero_iff.mp hz2
    linarith
  have hy : q2.y = d * q1.y := by
    have hz2 : (q2.y - d * q1.y) ^ 2 = 0 := by
      linarith [sq_nonneg (q2.w - d * q1.w), sq_nonneg (q2.x - d * q1.x), sq_nonneg (q2.y - d * q1.y), sq_nonneg (q2.z - d * q1.z)]
    have := sq_eq_zero_iff.mp hz2
    linarith
  have hz : q2.z = d * q1.z := by
    have hz2 : (q2.z - d * q1.z) ^ 2 = 0 := by
      linarith [sq_nonneg (q2.w - d * q1.w), sq_nonneg (q2.x - d * q1.x), sq_nonneg (q2.y - d * q1.y), sq_nonneg (q2.z - d * q1.z)]
    have := sq_eq_zero_iff.mp hz2
    linarith
  have hd2 : d = 1 ∨ d = -1 := by
    have hfac : (d - 1) * (d + 1) = 0 := by linear_combination -hd
    rcases mul_eq_zero.mp hfac with h | h
    · left; linarith
    · right; linarith
  rcases hd2 with h | h <;> subst h
  · left
    apply Quat.ext4 <;> simp [hw, hx, hy, hz]
  · right
    apply Quat.ext4 <;> simp [hw, hx, hy, hz, Quat.neg]

/-- Spherical interpolation at `t = 0` returns the first rotation. -/
theorem slerpModel_zero {q1 q2 : Quat} (h1 : q1.normSq = 1)
    (h2 : q2.normSq = 1) : slerpModel q1 q2 0 = q1 := by
  unfold slerpModel
  by_cases hdeg : 1 - (q1.w * q2.w + q1.x * q2.x + q1.y * q2.y + q1.z * q2.z) ^ 2 = 0
  · rw [if_pos hdeg]
  · rw [if_neg hdeg]
    have hle := quat_dot_sq_le_one h1 h2
    have hpos : 0 < 1 - (q1.w * q2.w + q1.x * q2.x + q1.y * q2.y + q1.z * q2.z) ^ 2 :=
      lt_of_le_of_ne (by linarith) (Ne.symm hdeg)
    have hso : Real.sqrt (1 - (q1.w * q2.w + q1.x * q2.x + q1.y * q2.y + q1.z * q2.z) ^ 2) ≠ 0 :=
      ne_of_gt (Real.sqrt_pos.mpr hpos)
    have hsin : Real.sin ((1 - (0 : ℝ)) *
        Real.arccos (q1.w * q2.w + q1.x * q2.x + q1.y * q2.y + q1.z * q2.z)) =
        Real.sqrt (1 - (q1.w * q2.w + q1.x * q2.x + q1.y * q2.y + q1.z * q2.z) ^ 2) := by
      rw [show ((1 : ℝ) - 0) * Real.arccos (q1.w * q2.w + q1.x * q2.x + q1.y * q2.y + q1.z * q2.z) = Real.arccos (q1.w * q2.w + q1.x * q2.x + q1.y * q2.y + q1.z * q2.z) by ring]
      exact Real.sin_arccos _
    simp only
    rw [hsin]
    apply Quat.ext4 <;>
      simp only [Quat.smul] <;>
      rw [show (0 : ℝ) * Real.arccos (q1.w * q2.w + q1.x * q2.x + q1.y * q2.y + q1.z * q2.z) = 0 by ring] <;>
      rw [Real.sin_zero] <;>
      field_simp

/-- Spherical interpolation at `t = 1` returns the second rotation, up
to quaternion sign in the degenerate configuration. -/
theorem slerpModel_one {q1 q2 : Quat} (h1 : q1.normSq = 1)
    (h2 : q2.normSq = 1) :
    slerpModel q1 q2 1 = q2 ∨ slerpModel q1 q2 1 = Quat.neg q2 := by
  unfold slerpModel
  by_cases hdeg : 1 - (q1.w * q2.w + q1.x * q2.x + q1.y * q2.y + q1.z * q2.z) ^ 2 = 0
  · rw [if_pos hdeg]
    rcases quat_eq_or_neg_of_dot_sq_one h1 h2 hdeg with h | h
    · left; rw [h]
    · right
      rw [h]
      unfold Quat.neg
      apply Quat.ext4 <;> simp
  · rw [if_neg hdeg]
    left
    have hle := quat_dot_sq_le_one h1 h2
    have hpos : 0 < 1 - (q1.w * q2.w + q1.x * q2.x + q1.y * q2.y + q1.z * q2.z) ^ 2 :=
      lt_of_le_of_ne (by linarith) (Ne.symm hdeg)
    have hso : Real.sqrt (1 - (q1.w * q2.w + q1.x * q2.x + q1.y * q2.y + q1.z * q2.z) ^ 2) ≠ 0 :=
      ne_of_gt (Real.sqrt_pos.mpr hpos)
    have hsin : Real.sin ((1 : ℝ) *
        Real.arccos (q1.w * q2.w + q1.x * q2.x + q1.y * q2.y + q1.z * q2.z)) =
        Real.sqrt (1 - (q1.w * q2.w + q1.x * q2.x + q1.y * q2.y + q1.z * q2.z) ^ 2) := by
      rw [one_mul]
      exact Real.sin_arccos _
    simp only
    rw [hsin]
    apply Quat.ext4 <;>
      simp only [Quat.smul] <;>
      rw [show ((1 : ℝ) - 1) * Real.arccos (q1.w * q2.w + q1.x * q2.x + q1.y * q2.y + q1.z * q2.z) = 0 by ring] <;>
      rw [Real.sin_zero] <;>
      field_simp

/-- Auxiliary expansion: the squared norm of a linear combination of two
quaternions. -/
theorem normSq_linComb (A B : ℝ) (q1 q2 : Quat) :
    Quat.normSq ⟨A * q1.w + B * q2.w, A * q1.x + B * q2.x,
      A * q1.y + B * q2.y, A * q1.z + B * q2.z⟩ =
      A ^ 2 * q1.normSq +
        2 * A * B * (q1.w * q2.w + q1.x * q2.x + q1.y * q2.y + q1.z * q2.z) +
        B ^ 2 * q2.normSq := by
  unfold Quat.normSq
  ring

/-- Pure algebra behind slerp normalization: the interpolation
coefficients lie on the unit circle. -/
theorem slerp_coeff_identity (D so st ct : ℝ) (hso : so ≠ 0)
    (hso2 : so ^ 2 = 1 - D ^ 2) (hpy : st ^ 2 + ct ^ 2 = 1) :
    ((so * ct - D * st) / so) ^ 2 * 1 +
      2 * ((so * ct - D * st) / so) * (st / so) * D + (st / so) ^ 2 * 1 = 1 := by
  have h2 : (so * ct - D * st) ^ 2 + 2 * (so * ct - D * st) * st * D + st ^ 2 =
      so ^ 2 := by
    linear_combination (-(st ^ 2)) * hso2 + so ^ 2 * hpy
  have hgoal : ((so * ct - D * st) / so) ^ 2 * 1 +
      2 * ((so * ct - D * st) / so) * (st / so) * D + (st / so) ^ 2 * 1 =
      ((so * ct - D * st) ^ 2 + 2 * (so * ct - D * st) * st * D + st ^ 2) /
        so ^ 2 := by
    field_simp
    ring
  rw [hgoal, h2]
  exact div_self (pow_ne_zero 2 hso)

/-- Spherical interpolation of unit quaternions stays on the unit
sphere, for every interpolation parameter. -/
theorem slerpModel_normSq {q1 q2 : Quat} (h1 : q1.normSq = 1)
    (h2 : q2.normSq = 1) (t : ℝ) : (slerpModel q1 q2 t).normSq = 1 := by
  unfold slerpModel
  by_cases hdeg : 1 - (q1.w * q2.w + q1.x * q2.x + q1.y * q2.y + q1.z * q2.z) ^ 2 = 0
  · rw [if_pos hdeg]; exact h1
  · rw [if_neg hdeg]
    simp only [Quat.smul]
    have hle := quat_dot_sq_le_one h1 h2
    set D : ℝ := q1.w * q2.w + q1.x * q2.x + q1.y * q2.y + q1.z * q2.z with hD
    have hDswap : q1.w * q2.w + q1.x * q2.x + q1.y * q2.y + q1.z * q2.z = D :=
      hD.symm
    have hpos : 0 < 1 - D ^ 2 := lt_of_le_of_ne (by linarith) (Ne.symm hdeg)
    set so : ℝ := Real.sqrt (1 - D ^ 2) with hso
    have hsopos : 0 < so := Real.sqrt_pos.mpr hpos
    have hso2 : so ^ 2 = 1 - D ^ 2 := Real.sq_sqrt (by linarith)
    have hd1 : -1 ≤ D := by nlinarith
    have hd2 : D ≤ 1 := by nlinarith
    set om : ℝ := Real.arccos D with hom
    have hcos : Real.cos om = D := Real.cos_arccos hd1 hd2
    have hsinom : Real.sin om = so := by rw [hom, Real.sin_arccos, ← hso]
    set st : ℝ := Real.sin (t * om) with hst
    set ct : ℝ := Real.cos (t * om) with hct
    have hsub : Real.sin ((1 - t) * om) = so * ct - D * st := by
      rw [show (1 - t) * om = om - t * om by ring, Real.sin_sub, hsinom, hcos]
    have hpy : st ^ 2 + ct ^ 2 = 1 := Real.sin_sq_add_cos_sq _
    have hsone : so ≠ 0 := ne_of_gt hsopos
    rw [hsub, normSq_linComb, h1, h2, hDswap]
    clear_value so st ct D
    exact slerp_coeff_identity D so st ct hsone hso2 hpy

/-- C8: `interpolate` is spherical interpolation on the rotation and
linear interpolation on the translation; `t = 0` returns self exactly;
`t = 1` returns the target, its rotation up to quaternion sign (the
same rotation); and the interpolated rotation keeps unit norm for every
`t ∈ [0, 1]` — in both representations. -/
theorem interpolate_boundaries_and_unit (p q : IDQ) (r u : Iso) (t : ℝ)
    (hp : p.rotation.normSq = 1) (hq : q.rotation.normSq = 1)
    (hr : r.rotation.normSq = 1) (hu : u.rotation.normSq = 1)
    (ht0 : 0 ≤ t) (ht1 : t ≤ 1) :
    (IDQ.interpolate p q t).rotation = slerpModel p.rotation q.rotation t ∧
    (IDQ.interpolate p q t).translation =
      V3.add (V3.smul (1 - t) p.translation) (V3.smul t q.translation) ∧
    IDQ.interpolate p q 0 = p ∧
    (IDQ.interpolate p q 1 = q ∨
     IDQ.interpolate p q 1 = ⟨q.translation, Quat.neg q.rotation⟩) ∧
    (IDQ.interpolate p q t).rotation.normSq = 1 ∧
    Iso.interpolate r u 0 = r ∧
    (Iso.interpolate r u 1 = u ∨
     Iso.interpolate r u 1 = ⟨u.translation, Quat.neg u.rotation⟩) ∧
    (Iso.interpolate r u t).rotation.normSq = 1 := by
  refine ⟨rfl, rfl, ?_, ?_, ?_, ?_, ?_, ?_⟩
  · unfold IDQ.interpolate
    refine IDQ.ext2 _ _ ?_ ?_
    · simp only
      unfold V3.add V3.smul
      apply V3.ext3 <;> simp only <;> ring
    · simp only
      exact slerpModel_zero hp hq
  · rcases slerpModel_one hp hq with h | h
    · left
      unfold IDQ.interpolate
      refine IDQ.ext2 _ _ ?_ ?_
      · simp only
        unfold V3.add V3.smul
        apply V3.ext3 <;> simp only <;> ring
      · simp only
        exact h
    · right
      unfold IDQ.interpolate
      refine IDQ.ext2 _ _ ?_ ?_
      · simp only
        unfold V3.add V3.smul
        apply V3.ext3 <;> simp only <;> ring
      · simp only
        exact h
  · exact slerpModel_normSq hp hq t
  · unfold Iso.interpolate
    refine Iso.ext2_iso _ _ ?_ ?_
    · simp only
      unfold V3.add V3.smul
      apply V3.ext3 <;> simp only <;> ring
    · simp only
      exact slerpModel_zero hr hu
  · rcases slerpModel_one hr hu with h | h
    · left
      unfold Iso.interpolate
      refine Iso.ext2_iso _ _ ?_ ?_
      · simp only
        unfold V3.add V3.smul
        apply V3.ext3 <;> simp only <;> ring
      · simp only
        exact h
    · right
      unfold Iso.interpolate
      refine Iso.ext2_iso _ _ ?_ ?_
      · simp only
        unfold V3.add V3.smul
        apply V3.ext3 <;> simp only <;> ring
      · simp only
        exact h
  · exact slerpModel_normSq hr hu t

/-- Witness for `interpolate_boundaries_and_unit` at `t = 1/2` with
identity rotations. -/
theorem interpolate_boundaries_and_unit_witness :
    (Quat.normSq ⟨1, 0, 0, 0⟩ = 1) ∧ (0 : ℝ) ≤ 1 / 2 ∧ (1 : ℝ) / 2 ≤ 1 ∧
    IDQ.interpolate ⟨⟨1, 2, 3⟩, ⟨1, 0, 0, 0⟩⟩ ⟨⟨4, 5, 6⟩, ⟨1, 0, 0, 0⟩⟩ 0 =
      ⟨⟨1, 2, 3⟩, ⟨1, 0, 0, 0⟩⟩ ∧
    (IDQ.interpolate ⟨⟨1, 2, 3⟩, ⟨1, 0, 0, 0⟩⟩ ⟨⟨4, 5, 6⟩, ⟨1, 0, 0, 0⟩⟩
      (1 / 2)).rotation.normSq = 1 := by
  have hq : Quat.normSq ⟨1, 0, 0, 0⟩ = 1 := by unfold Quat.normSq; norm_num
  have h := interpolate_boundaries_and_unit
    ⟨⟨1, 2, 3⟩, ⟨1, 0, 0, 0⟩⟩ ⟨⟨4, 5, 6⟩, ⟨1, 0, 0, 0⟩⟩
    ⟨⟨1, 2, 3⟩, ⟨1, 0, 0, 0⟩⟩ ⟨⟨4, 5, 6⟩, ⟨1, 0, 0, 0⟩⟩ (1 / 2)
    hq hq hq hq (by norm_num) (by norm_num)
  have h0 := interpolate_boundaries_and_unit
    ⟨⟨1, 2, 3⟩, ⟨1, 0, 0, 0⟩⟩ ⟨⟨4, 5, 6⟩, ⟨1, 0, 0, 0⟩⟩
    ⟨⟨1, 2, 3⟩, ⟨1, 0, 0, 0⟩⟩ ⟨⟨4, 5, 6⟩, ⟨1, 0, 0, 0⟩⟩ 0
    hq hq hq hq (by norm_num) (by norm_num)
  exact ⟨hq, by norm_num, by norm_num, h0.2.2.1, h.2.2.2.2.1⟩

/-! ### C9: the unit-norm invariant -/

/-- Scaled-axis construction always produces a unit quaternion. -/
theorem fromScaledAxis_normSq (v : V3) : (fromScaledAxis v).normSq = 1 := by
  unfold fromScaledAxis
  by_cases hn : v.norm = 0
  · rw [if_pos hn]
    unfold Quat.one Quat.normSq
    norm_num
  · rw [if_neg hn]
    unfold Quat.normSq
    simp only
    have hn2 : v.norm ^ 2 = v.x ^ 2 + v.y ^ 2 + v.z ^ 2 := v.sq_norm
    have hpy : Real.sin (v.norm / 2) ^ 2 + Real.cos (v.norm / 2) ^ 2 = 1 :=
      Real.sin_sq_add_cos_sq _
    field_simp
    linear_combination v.norm ^ 2 * hpy - Real.sin (v.norm / 2) ^ 2 * hn2

/-- The rotation built by `generic_pose_exp`, before normalization. -/
theorem genericPoseExp_rotation_eq (l : V6) :
    (genericPoseExp l).2 = Quat.normalize
      ⟨Real.cos (V3.norm ⟨l.c0, l.c1, l.c2⟩),
       (if V3.norm ⟨l.c0, l.c1, l.c2⟩ < 1e-8 then
          1 - V3.norm ⟨l.c0, l.c1, l.c2⟩ ^ 2 / 6 +
            V3.norm ⟨l.c0, l.c1, l.c2⟩ ^ 4 / 120
        else Real.sin (V3.norm ⟨l.c0, l.c1, l.c2⟩) /
          V3.norm ⟨l.c0, l.c1, l.c2⟩) * l.c0,
       (if V3.norm ⟨l.c0, l.c1, l.c2⟩ < 1e-8 then
          1 - V3.norm ⟨l.c0, l.c1, l.c2⟩ ^ 2 / 6 +
            V3.norm ⟨l.c0, l.c1, l.c2⟩ ^ 4 / 120
        else Real.sin (V3.norm ⟨l.c0, l.c1, l.c2⟩) /
          V3.norm ⟨l.c0, l.c1, l.c2⟩) * l.c1,
       (if V3.norm ⟨l.c0, l.c1, l.c2⟩ < 1e-8 then
          1 - V3.norm ⟨l.c0, l.c1, l.c2⟩ ^ 2 / 6 +
            V3.norm ⟨l.c0, l.c1, l.c2⟩ ^ 4 / 120
        else Real.sin (V3.norm ⟨l.c0, l.c1, l.c2⟩) /
          V3.norm ⟨l.c0, l.c1, l.c2⟩) * l.c2⟩ := rfl

/-- The rotation produced by the exponential map is always unit. -/
theorem genericPoseExp_rotation_normSq (l : V6) :
    ((genericPoseExp l).2).normSq = 1 := by
  rw [genericPoseExp_rotation_eq]
  have hphi0 : 0 ≤ V3.norm ⟨l.c0, l.c1, l.c2⟩ := V3.norm_nonneg _
  have hphi2 : V3.norm ⟨l.c0, l.c1, l.c2⟩ ^ 2 = l.c0 ^ 2 + l.c1 ^ 2 + l.c2 ^ 2 :=
    V3.sq_norm _
  apply Quat.normSq_normalize
  unfold Quat.normSq
  simp only
  by_cases hphi : V3.norm ⟨l.c0, l.c1, l.c2⟩ < 1e-8
  · rw [if_pos hphi]
    have hcos : 0 < Real.cos (V3.norm ⟨l.c0, l.c1, l.c2⟩) := by
      apply Real.cos_pos_of_le_one
      rw [abs_of_nonneg hphi0]
      linarith [hphi]
    nlinarith [sq_nonneg ((1 - V3.norm ⟨l.c0, l.c1, l.c2⟩ ^ 2 / 6 + V3.norm ⟨l.c0, l.c1, l.c2⟩ ^ 4 / 120) * l.c0), sq_nonneg ((1 - V3.norm ⟨l.c0, l.c1, l.c2⟩ ^ 2 / 6 + V3.norm ⟨l.c0, l.c1, l.c2⟩ ^ 4 / 120) * l.c1), sq_nonneg ((1 - V3.norm ⟨l.c0, l.c1, l.c2⟩ ^ 2 / 6 + V3.norm ⟨l.c0, l.c1, l.c2⟩ ^ 4 / 120) * l.c2)]
  · rw [if_neg hphi]
    have hne : V3.norm ⟨l.c0, l.c1, l.c2⟩ ≠ 0 := by
      intro h
      rw [h] at hphi
      norm_num at hphi
    have hpy : Real.sin (V3.norm ⟨l.c0, l.c1, l.c2⟩) ^ 2 +
        Real.cos (V3.norm ⟨l.c0, l.c1, l.c2⟩) ^ 2 = 1 :=
      Real.sin_sq_add_cos_sq _
    have hval : Real.cos (V3.norm ⟨l.c0, l.c1, l.c2⟩) ^ 2 +
        ((Real.sin (V3.norm ⟨l.c0, l.c1, l.c2⟩) / V3.norm ⟨l.c0, l.c1, l.c2⟩) * l.c0) ^ 2 +
        ((Real.sin (V3.norm ⟨l.c0, l.c1, l.c2⟩) / V3.norm ⟨l.c0, l.c1, l.c2⟩) * l.c1) ^ 2 +
        ((Real.sin (V3.norm ⟨l.c0, l.c1, l.c2⟩) / V3.norm ⟨l.c0, l.c1, l.c2⟩) * l.c2) ^ 2 = 1 := by
      field_simp
      linear_combination V3.norm ⟨l.c0, l.c1, l.c2⟩ ^ 2 * hpy -
        Real.sin (V3.norm ⟨l.c0, l.c1, l.c2⟩) ^ 2 * hphi2
    rw [hval]
    norm_num

/-- C9: every constructing or mutating operation yields a pose whose
rotation again has unit (squared) norm: scaled-axis construction, the
three rotation-update variants, composition, inverse, interpolation,
and the exponential map — for the dual-quaternion representation, and
composition/inverse/interpolation for the isometry representation. -/
theorem unit_norm_preservation (p q : IDQ) (r u : Iso) (v sa : V3)
    (rq rr : Quat) (t : ℝ) (l : V6)
    (hp : p.rotation.normSq = 1) (hq : q.rotation.normSq = 1)
    (hr : r.rotation.normSq = 1) (hu : u.rotation.normSq = 1)
    (hrr : rr.normSq = 1) :
    (IDQ.fromTranslationAndRotation v rq).rotation.normSq = 1 ∧
    (IDQ.updateRotationConstructor p sa).rotation.normSq = 1 ∧
    (IDQ.updateRotationNative p rr).rotation.normSq = 1 ∧
    (IDQ.updateRotationDirect p rq).rotation.normSq = 1 ∧
    (IDQ.mul p q).rotation.normSq = 1 ∧
    (IDQ.inverse p).rotation.normSq = 1 ∧
    (IDQ.interpolate p q t).rotation.normSq = 1 ∧
    (IDQ.exp l).rotation.normSq = 1 ∧
    (Iso.mul r u).rotation.normSq = 1 ∧
    (Iso.inverse r).rotation.normSq = 1 ∧
    (Iso.interpolate r u t).rotation.normSq = 1 := by
  refine ⟨fromScaledAxis_normSq _, fromScaledAxis_normSq _, hrr,
    fromScaledAxis_normSq _, ?_, ?_, slerpModel_normSq hp hq t,
    genericPoseExp_rotation_normSq l, ?_, ?_, slerpModel_normSq hr hu t⟩
  · unfold IDQ.mul
    simp only
    rw [Quat.normSq_mul, hp, hq]
    norm_num
  · unfold IDQ.inverse
    simp only
    rw [Quat.conj_normSq, hp]
  · unfold Iso.mul
    simp only
    rw [Quat.normSq_mul, hr, hu]
    norm_num
  · unfold Iso.inverse
    simp only
    rw [Quat.conj_normSq, hr]

/-- Witness for `unit_norm_preservation` at concrete inputs. -/
theorem unit_norm_preservation_witness :
    (Quat.normSq ⟨1, 0, 0, 0⟩ = 1) ∧
    (IDQ.mul ⟨⟨1, 2, 3⟩, ⟨1, 0, 0, 0⟩⟩
      ⟨⟨4, 5, 6⟩, ⟨1, 0, 0, 0⟩⟩).rotation.normSq = 1 ∧
    (IDQ.exp ⟨1, 0, 0, 0, 0, 0⟩).rotation.normSq = 1 := by
  have hq : Quat.normSq ⟨1, 0, 0, 0⟩ = 1 := by unfold Quat.normSq; norm_num
  have h := unit_norm_preservation
    ⟨⟨1, 2, 3⟩, ⟨1, 0, 0, 0⟩⟩ ⟨⟨4, 5, 6⟩, ⟨1, 0, 0, 0⟩⟩
    ⟨⟨1, 2, 3⟩, ⟨1, 0, 0, 0⟩⟩ ⟨⟨4, 5, 6⟩, ⟨1, 0, 0, 0⟩⟩
    ⟨0, 0, 0⟩ ⟨0, 0, 0⟩ ⟨1, 0, 0, 0⟩ ⟨1, 0, 0, 0⟩ (1 / 2) ⟨1, 0, 0, 0, 0, 0⟩
    hq hq hq hq hq
  exact ⟨hq, h.2.2.2.2.1, h.2.2.2.2.2.2.2.1⟩

/-! ### C7: the 6-element codec -/

theorem V3.norm_smul (k : ℝ) (v : V3) : (V3.smul k v).norm = |k| * v.norm := by
  unfold V3.norm V3.normSq V3.smul
  simp only
  rw [show (k * v.x) ^ 2 + (k * v.y) ^ 2 + (k * v.z) ^ 2 =
      k ^ 2 * (v.x ^ 2 + v.y ^ 2 + v.z ^ 2) by ring]
  rw [Real.sqrt_mul (sq_nonneg k), Real.sqrt_sq_eq_abs]

theorem Quat.vecPart_x (q : Quat) : q.vecPart.x = q.x := rfl

theorem Quat.vecPart_y (q : Quat) : q.vecPart.y = q.y := rfl

theorem Quat.vecPart_z (q : Quat) : q.vecPart.z = q.z := rfl

/-- Scaled-axis extraction followed by scaled-axis construction restores
a unit quaternion up to the sign of its scalar part. -/
theorem fromScaledAxis_scaledAxis {q : Quat} (hq : q.normSq = 1) :
    fromScaledAxis q.scaledAxis = if 0 ≤ q.w then q else q.neg := by
  have hcs := unit_circle_of_normSq hq
  have hs0 : 0 ≤ q.vecPart.norm := V3.norm_nonneg _
  by_cases hs : q.vecPart.norm = 0
  · -- vanishing vector part: the quaternion is `±1`
    have hsa : q.scaledAxis = V3.zero := by
      unfold Quat.scaledAxis
      simp only
      rw [if_pos hs]
    rw [hsa, fromScaledAxis_zero]
    have hvec := (V3.norm_eq_zero_iff _).mp hs
    have hx : q.x = 0 := congrArg V3.x hvec
    have hy : q.y = 0 := congrArg V3.y hvec
    have hz : q.z = 0 := congrArg V3.z hvec
    have hw2 : q.w ^ 2 = 1 := by
      rw [hs] at hcs
      nlinarith
    by_cases hw : 0 ≤ q.w
    · rw [if_pos hw]
      have hw1 : q.w = 1 := by nlinarith
      unfold Quat.one
      apply Quat.ext4 <;> simp [hw1, hx, hy, hz]
    · rw [if_neg hw]
      have hw1 : q.w = -1 := by nlinarith
      unfold Quat.one Quat.neg
      apply Quat.ext4 <;> simp [hw1, hx, hy, hz]
  · -- nonvanishing vector part
    have hspos : 0 < q.vecPart.norm := lt_of_le_of_ne hs0 (Ne.symm hs)
    have hsn : q.vecPart.norm ^ 2 = 1 - q.w ^ 2 := by nlinarith
    have hwle : q.w ≤ 1 := by nlinarith
    have hwge : -1 ≤ q.w := by nlinarith
    have hwlt : q.w < 1 := by
      rcases lt_or_eq_of_le hwle with h | h
      · exact h
      · exfalso
        rw [h] at hsn
        nlinarith
    have hwgt : -1 < q.w := by
      rcases lt_or_eq_of_le hwge with h | h
      · exact h
      · exfalso
        rw [← h] at hsn
        nlinarith
    by_cases hw : 0 ≤ q.w
    · -- nonnegative scalar part: exact reconstruction
      have hsa : q.scaledAxis =
          V3.smul (2 * Real.arccos q.w / q.vecPart.norm) q.vecPart := by
        unfold Quat.scaledAxis
        simp only
        rw [if_neg hs, abs_of_nonneg hw, if_pos hw]
      have hA0 : 0 ≤ 2 * Real.arccos q.w := by
        have := Real.arccos_nonneg q.w
        linarith
      have hAn : q.scaledAxis.norm = 2 * Real.arccos q.w := by
        rw [hsa, V3.norm_smul,
          abs_of_nonneg (div_nonneg hA0 (le_of_lt hspos))]
        field_simp
      have hAne : (2 : ℝ) * Real.arccos q.w ≠ 0 := by
        intro h0
        have : Real.arccos q.w = 0 := by linarith
        have := Real.arccos_eq_zero.mp this
        linarith
      have hcosA : Real.cos (2 * Real.arccos q.w / 2) = q.w := by
        rw [show 2 * Real.arccos q.w / 2 = Real.arccos q.w by ring]
        exact Real.cos_arccos hwge hwle
      have hsinA : Real.sin (2 * Real.arccos q.w / 2) = q.vecPart.norm := by
        rw [show 2 * Real.arccos q.w / 2 = Real.arccos q.w by ring,
          Real.sin_arccos, show 1 - q.w ^ 2 = q.vecPart.norm ^ 2 by linarith]
        exact Real.sqrt_sq hs0
      rw [if_pos hw]
      unfold fromScaledAxis
      simp only
      rw [hAn, if_neg hAne, hcosA, hsinA, hsa]
      apply Quat.ext4 <;>
        simp only [V3.smul, Quat.vecPart_x, Quat.vecPart_y, Quat.vecPart_z] <;>
        field_simp <;>
        ring
    · -- negative scalar part: reconstruction of the negated quaternion
      have hwneg : q.w < 0 := not_le.mp hw
      have hA0 : 0 ≤ 2 * Real.arccos (-q.w) := by
        have := Real.arccos_nonneg (-q.w)
        linarith
      have hsa : q.scaledAxis =
          V3.smul (-(2 * Real.arccos (-q.w) / q.vecPart.norm)) q.vecPart := by
        unfold Quat.scaledAxis
        simp only
        rw [if_neg hs, abs_of_neg hwneg, if_neg hw]
      have hAn : q.scaledAxis.norm = 2 * Real.arccos (-q.w) := by
        rw [hsa, V3.norm_smul, abs_neg,
          abs_of_nonneg (div_nonneg hA0 (le_of_lt hspos))]
        field_simp
      have hAne : (2 : ℝ) * Real.arccos (-q.w) ≠ 0 := by
        intro h0
        have : Real.arccos (-q.w) = 0 := by linarith
        have := Real.arccos_eq_zero.mp this
        linarith
      have hcosA : Real.cos (2 * Real.arccos (-q.w) / 2) = -q.w := by
        rw [show 2 * Real.arccos (-q.w) / 2 = Real.arccos (-q.w) by ring]
        exact Real.cos_arccos (by linarith) (by linarith)
      have hsinA : Real.sin (2 * Real.arccos (-q.w) / 2) = q.vecPart.norm := by
        rw [show 2 * Real.arccos (-q.w) / 2 = Real.arccos (-q.w) by ring,
          Real.sin_arccos, show 1 - (-q.w) ^ 2 = q.vecPart.norm ^ 2 by nlinarith]
        exact Real.sqrt_sq hs0
      rw [if_neg hw]
      unfold fromScaledAxis
      simp only
      rw [hAn, if_neg hAne, hcosA, hsinA, hsa]
      apply Quat.ext4 <;>
        simp only [V3.smul, Quat.neg, Quat.vecPart_x, Quat.vecPart_y,
          Quat.vecPart_z] <;>
        field_simp <;>
        ring

/-- C7: the codec emits exactly `[tx, ty, tz, rx, ry, rz]` with
`(rx, ry, rz)` the rotation's scaled axis, and decoding the encoding
reproduces the translation exactly and the rotation up to quaternion
sign (the same rotation, scaled-axis equivalent modulo wraparound). -/
theorem codec_round_trip (p : IDQ) (hp : p.rotation.normSq = 1) :
    o3dPoseCustomSerialize p =
      [p.translation.x, p.translation.y, p.translation.z,
       p.rotation.scaledAxis.x, p.rotation.scaledAxis.y,
       p.rotation.scaledAxis.z] ∧
    (o3dPoseCustomDeserialize (o3dPoseCustomSerialize p) =
       DeserOutcome.ok ⟨p.translation, p.rotation⟩ ∨
     o3dPoseCustomDeserialize (o3dPoseCustomSerialize p) =
       DeserOutcome.ok ⟨p.translation, Quat.neg p.rotation⟩) := by
  refine ⟨rfl, ?_⟩
  have h1 : fromScaledAxis p.rotation.scaledAxis =
      if 0 ≤ p.rotation.w then p.rotation else p.rotation.neg :=
    fromScaledAxis_scaledAxis hp
  have hq1unit : (fromScaledAxis p.rotation.scaledAxis).normSq = 1 :=
    fromScaledAxis_normSq _
  have hq1w : 0 ≤ (fromScaledAxis p.rotation.scaledAxis).w := by
    by_cases hw : 0 ≤ p.rotation.w
    · rw [h1, if_pos hw]
      exact hw
    · rw [h1, if_neg hw]
      unfold Quat.neg
      simp only
      linarith [not_le.mp hw]
  have h2 : fromScaledAxis (fromScaledAxis p.rotation.scaledAxis).scaledAxis =
      fromScaledAxis p.rotation.scaledAxis := by
    rw [fromScaledAxis_scaledAxis hq1unit, if_pos hq1w]
  have hdec : o3dPoseCustomDeserialize (o3dPoseCustomSerialize p) =
      DeserOutcome.ok ⟨p.translation,
        fromScaledAxis (fromScaledAxis p.rotation.scaledAxis).scaledAxis⟩ :=
    rfl
  rw [hdec, h2, h1]
  by_cases hw : 0 ≤ p.rotation.w
  · left
    rw [if_pos hw]
  · right
    rw [if_neg hw]

/-- Witness for `codec_round_trip` at translation `(1, 2, 3)` and the
identity rotation. -/
theorem codec_round_trip_witness :
    (Quat.normSq ⟨1, 0, 0, 0⟩ = 1) ∧
    (o3dPoseCustomDeserialize
        (o3dPoseCustomSerialize ⟨⟨1, 2, 3⟩, ⟨1, 0, 0, 0⟩⟩) =
       DeserOutcome.ok ⟨⟨1, 2, 3⟩, ⟨1, 0, 0, 0⟩⟩ ∨
     o3dPoseCustomDeserialize
        (o3dPoseCustomSerialize ⟨⟨1, 2, 3⟩, ⟨1, 0, 0, 0⟩⟩) =
       DeserOutcome.ok ⟨⟨1, 2, 3⟩, Quat.neg ⟨1, 0, 0, 0⟩⟩) := by
  have hq : Quat.normSq ⟨1, 0, 0, 0⟩ = 1 := by unfold Quat.normSq; norm_num
  exact ⟨hq, (codec_round_trip ⟨⟨1, 2, 3⟩, ⟨1, 0, 0, 0⟩⟩ hq).2⟩

set_option maxHeartbeats 4000000 in
/-- The exponential inverts the logarithm exactly on the main branches:
for a unit rotation quaternion whose vector part has norm at least
`1e-14` and whose rotation angle is at least `1e-8`, `exp (ln p) = p`
with zero error. -/
theorem expLn_exact_comp (tx ty tz w x y z : ℝ)
    (hq : w ^ 2 + x ^ 2 + y ^ 2 + z ^ 2 = 1)
    (hs : 1e-14 ≤ V3.norm ⟨x, y, z⟩)
    (hphi : 1e-8 ≤ atan2 (V3.norm ⟨x, y, z⟩) w) :
    IDQ.exp (IDQ.ln ⟨⟨tx, ty, tz⟩, ⟨w, x, y, z⟩⟩) =
      ⟨⟨tx, ty, tz⟩, ⟨w, x, y, z⟩⟩ := by
  have hs2 : V3.norm ⟨x, y, z⟩ ^ 2 = x ^ 2 + y ^ 2 + z ^ 2 := V3.sq_norm _
  have hspos : (0 : ℝ) < V3.norm ⟨x, y, z⟩ := lt_of_lt_of_le (by norm_num) hs
  have hcs : w ^ 2 + V3.norm ⟨x, y, z⟩ ^ 2 = 1 := by rw [hs2]; linarith
  have hphipos : (0 : ℝ) < atan2 (V3.norm ⟨x, y, z⟩) w :=
    lt_of_lt_of_le (by norm_num) hphi
  have hsin : Real.sin (atan2 (V3.norm ⟨x, y, z⟩) w) = V3.norm ⟨x, y, z⟩ :=
    sin_atan2 hcs
  have hcos : Real.cos (atan2 (V3.norm ⟨x, y, z⟩) w) = w := cos_atan2 hcs
  have hsne : V3.norm ⟨x, y, z⟩ ≠ 0 := ne_of_gt hspos
  have hpne : atan2 (V3.norm ⟨x, y, z⟩) w ≠ 0 := ne_of_gt hphipos
  have hln : IDQ.ln ⟨⟨tx, ty, tz⟩, ⟨w, x, y, z⟩⟩ =
      let S := V3.norm ⟨x, y, z⟩
      let P := atan2 (V3.norm ⟨x, y, z⟩) w
      ⟨P / S * x, P / S * y, P / S * z,
       (1 - w * P / S) * ((tx * x + ty * y + tz * z) * x) / (2 * S ^ 2) +
         w * P / S * (tx / 2) + P / S * (ty * z - tz * y) / 2,
       (1 - w * P / S) * ((tx * x + ty * y + tz * z) * y) / (2 * S ^ 2) +
         w * P / S * (ty / 2) + P / S * (tz * x - tx * z) / 2,
       (1 - w * P / S) * ((tx * x + ty * y + tz * z) * z) / (2 * S ^ 2) +
         w * P / S * (tz / 2) + P / S * (tx * y - ty * x) / 2⟩ := by
    unfold IDQ.ln genericPoseLn
    simp only [Quat.vecPart]
    rw [if_pos hspos, if_neg (show ¬ V3.norm ⟨x, y, z⟩ < 1e-14 by linarith),
      if_neg (show ¬ atan2 (V3.norm ⟨x, y, z⟩) w < 1e-14 by linarith)]
    apply V6.ext6 <;> simp only [V3.smul, V3.add, V3.dot, V3.cross] <;>
      field_simp <;> ring
  rw [hln]
  simp only
  unfold IDQ.exp genericPoseExp
  simp only
  have hnr : V3.norm ⟨atan2 (V3.norm ⟨x, y, z⟩) w / V3.norm ⟨x, y, z⟩ * x,
      atan2 (V3.norm ⟨x, y, z⟩) w / V3.norm ⟨x, y, z⟩ * y,
      atan2 (V3.norm ⟨x, y, z⟩) w / V3.norm ⟨x, y, z⟩ * z⟩ =
      atan2 (V3.norm ⟨x, y, z⟩) w := by
    rw [show V3.mk (atan2 (V3.norm ⟨x, y, z⟩) w / V3.norm ⟨x, y, z⟩ * x)
        (atan2 (V3.norm ⟨x, y, z⟩) w / V3.norm ⟨x, y, z⟩ * y)
        (atan2 (V3.norm ⟨x, y, z⟩) w / V3.norm ⟨x, y, z⟩ * z) =
        V3.smul (atan2 (V3.norm ⟨x, y, z⟩) w / V3.norm ⟨x, y, z⟩) ⟨x, y, z⟩ from
        rfl]
    rw [V3.norm_smul, abs_of_nonneg (div_nonneg hphipos.le hspos.le)]
    field_simp
  rw [hnr]
  simp only [if_neg (not_lt.mpr hphi)]
  rw [hsin, hcos]
  refine IDQ.ext2 _ _ ?_ ?_
  · generalize hPg : atan2 (V3.norm ⟨x, y, z⟩) w = P0
    generalize hSg : V3.norm ⟨x, y, z⟩ = S0
    rw [hPg] at hpne
    rw [hSg] at hs2 hsne hcs
    apply V3.ext3
    · simp only [V3.smul, V3.add, V3.dot, V3.cross]
      field_simp
      linear_combination (512 * S0^13 * P0^7 * w * x * z * tz + 512 * S0^13 * P0^7 * w * x * y * ty + 512 * S0^13 * P0^7 * w * x^2 * tx + (-1024) * S0^14 * P0^6 * x * z * tz + (-1024) * S0^14 * P0^6 * x * y * ty + (-1024) * S0^14 * P0^6 * x^2 * tx + 512 * S0^15 * P0^5 * w * x * z * tz + 512 * S0^15 * P0^5 * w * x * y * ty + 512 * S0^15 * P0^5 * w * x^2 * tx + 512 * S0^16 * P0^6 * x * z * tz + 512 * S0^16 * P0^6 * x * y * ty + 512 * S0^16 * P0^6 * x^2 * tx + (-512) * S0^18 * P0^6 * tx) * hs2 + (512 * S0^14 * P0^6 * x * z^3 * tz + 512 * S0^14 * P0^6 * x * y * z^2 * ty + 512 * S0^14 * P0^6 * x * y^2 * z * tz + 512 * S0^14 * P0^6 * x * y^3 * ty + 512 * S0^14 * P0^6 * x^2 * z^2 * tx + 512 * S0^14 * P0^6 * x^2 * y^2 * tx + 512 * S0^14 * P0^6 * x^3 * z * tz + 512 * S0^14 * P0^6 * x^3 * y * ty + 512 * S0^14 * P0^6 * x^4 * tx + (-1024) * S0^16 * P0^6 * x * z * tz + (-1024) * S0^16 * P0^6 * x * y * ty + (-1024) * S0^16 * P0^6 * x^2 * tx + 512 * S0^18 * P0^6 * tx) * hcs
    · simp only [V3.smul, V3.add, V3.dot, V3.cross]
      field_simp
      linear_combination (512 * S0^13 * P0^7 * w * y * z * tz + 512 * S0^13 * P0^7 * w * y^2 * ty + 512 * S0^13 * P0^7 * w * x * y * tx + (-1024) * S0^14 * P0^6 * y * z * tz + (-1024) * S0^14 * P0^6 * y^2 * ty + (-1024) * S0^14 * P0^6 * x * y * tx + 512 * S0^15 * P0^5 * w * y * z * tz + 512 * S0^15 * P0^5 * w * y^2 * ty + 512 * S0^15 * P0^5 * w * x * y * tx + 512 * S0^16 * P0^6 * y * z * tz + 512 * S0^16 * P0^6 * y^2 * ty + 512 * S0^16 * P0^6 * x * y * tx + (-512) * S0^18 * P0^6 * ty) * hs2 + (512 * S0^14 * P0^6 * y * z^3 * tz + 512 * S0^14 * P0^6 * y^2 * z^2 * ty + 512 * S0^14 * P0^6 * y^3 * z * tz + 512 * S0^14 * P0^6 * y^4 * ty + 512 * S0^14 * P0^6 * x * y * z^2 * tx + 512 * S0^14 * P0^6 * x * y^3 * tx + 512 * S0^14 * P0^6 * x^2 * y * z * tz + 512 * S0^14 * P0^6 * x^2 * y^2 * ty + 512 * S0^14 * P0^6 * x^3 * y * tx + (-1024) * S0^16 * P0^6 * y * z * tz + (-1024) * S0^16 * P0^6 * y^2 * ty + (-1024) * S0^16 * P0^6 * x * y * tx + 512 * S0^18 * P0^6 * ty) * hcs
    · simp only [V3.smul, V3.add, V3.dot, V3.cross]
      field_simp
      linear_combination (512 * S0^13 * P0^7 * w * z^2 * tz + 512 * S0^13 * P0^7 * w * y * z * ty + 512 * S0^13 * P0^7 * w * x * z * tx + (-1024) * S0^14 * P0^6 * z^2 * tz + (-1024) * S0^14 * P0^6 * y * z * ty + (-1024) * S0^14 * P0^6 * x * z * tx + 512 * S0^15 * P0^5 * w * z^2 * tz + 512 * S0^15 * P0^5 * w * y * z * ty + 512 * S0^15 * P0^5 * w * x * z * tx + 512 * S0^16 * P0^6 * z^2 * tz + 512 * S0^16 * P0^6 * y * z * ty + 512 * S0^16 * P0^6 * x * z * tx + (-512) * S0^18 * P0^6 * tz) * hs2 + (512 * S0^14 * P0^6 * z^4 * tz + 512 * S0^14 * P0^6 * y * z^3 * ty + 512 * S0^14 * P0^6 * y^2 * z^2 * tz + 512 * S0^14 * P0^6 * y^3 * z * ty + 512 * S0^14 * P0^6 * x * z^3 * tx + 512 * S0^14 * P0^6 * x * y^2 * z * tx + 512 * S0^14 * P0^6 * x^2 * z^2 * tz + 512 * S0^14 * P0^6 * x^2 * y * z * ty + 512 * S0^14 * P0^6 * x^3 * z * tx + (-1024) * S0^16 * P0^6 * z^2 * tz + (-1024) * S0^16 * P0^6 * y * z * ty + (-1024) * S0^16 * P0^6 * x * z * tx + 512 * S0^18 * P0^6 * tz) * hcs
  · simp only [V3.smul]
    rw [show Quat.mk w
        (V3.norm ⟨x, y, z⟩ / atan2 (V3.norm ⟨x, y, z⟩) w *
          (atan2 (V3.norm ⟨x, y, z⟩) w / V3.norm ⟨x, y, z⟩ * x))
        (V3.norm ⟨x, y, z⟩ / atan2 (V3.norm ⟨x, y, z⟩) w *
          (atan2 (V3.norm ⟨x, y, z⟩) w / V3.norm ⟨x, y, z⟩ * y))
        (V3.norm ⟨x, y, z⟩ / atan2 (V3.norm ⟨x, y, z⟩) w *
          (atan2 (V3.norm ⟨x, y, z⟩) w / V3.norm ⟨x, y, z⟩ * z)) =
        Quat.mk w x y z from by
      apply Quat.ext4 <;> simp only <;> field_simp <;> ring]
    exact Quat.normalize_of_unit (by unfold Quat.normSq; simp only; linarith)
/-- The exponential of a twist with zero rotation generator doubles the
translation generator and yields the identity rotation. -/
theorem genericPoseExp_zero_rot (a b c : ℝ) :
    genericPoseExp ⟨0, 0, 0, a, b, c⟩ = (⟨2 * a, 2 * b, 2 * c⟩, Quat.one) := by
  unfold genericPoseExp V3.norm V3.normSq
  norm_num [Real.cos_zero, Real.sin_zero, Real.sqrt_zero]
  constructor
  · unfold V3.smul V3.add V3.cross V3.dot
    apply V3.ext3 <;> norm_num
  · unfold Quat.normalize Quat.norm Quat.normSq Quat.smul V3.smul Quat.one
    norm_num

/-- C1 counterexample: the pose with translation `(1, 0, 0)` and unit
quaternion `-1` (a rotation by angle 0, represented with negative
scalar part) is mapped by `exp ∘ ln` to a pose whose translation first
coordinate differs from the original by more than 3. -/
theorem expLn_roundtrip_counterexample :
    Quat.normSq ⟨-1, 0, 0, 0⟩ = 1 ∧
    3 < |(IDQ.exp (IDQ.ln ⟨⟨1, 0, 0⟩, ⟨-1, 0, 0, 0⟩⟩)).translation.x - 1| := by
  constructor
  · unfold Quat.normSq; norm_num
  · have hln : IDQ.ln ⟨⟨1, 0, 0⟩, ⟨-1, 0, 0, 0⟩⟩ =
        ⟨0, 0, 0, (1 - Real.pi ^ 2 / 3 - Real.pi ^ 4 / 45) * (1 / 2),
         (1 - Real.pi ^ 2 / 3 - Real.pi ^ 4 / 45) * (0 / 2),
         (1 - Real.pi ^ 2 / 3 - Real.pi ^ 4 / 45) * (0 / 2)⟩ := by
      unfold IDQ.ln
      rw [genericPoseLn_scalar_quat, atan2_zero_negOne]
    rw [hln]
    unfold IDQ.exp
    rw [genericPoseExp_zero_rot]
    simp only
    have hpi : (3 : ℝ) < Real.pi := Real.pi_gt_three
    rw [abs_of_neg (by nlinarith)]
    nlinarith
/-- Triangle inequality for three summands. -/
theorem abs_add3 (a b c : ℝ) : |a + b + c| ≤ |a| + |b| + |c| := by
  calc |a + b + c| ≤ |a + b| + |c| := abs_add _ _
    _ ≤ |a| + |b| + |c| := by linarith [abs_add a b]

/-- A square root close to one: `|a - 1| ≤ d ≤ 1/2` gives
`|√a - 1| ≤ d`. -/
theorem sqrt_close_one {a d : ℝ} (hd0 : 0 ≤ d) (hd : d ≤ 1 / 2)
    (ha : |a - 1| ≤ d) : |Real.sqrt a - 1| ≤ d := by
  have ha1 : 1 - d ≤ a := by linarith [(abs_le.mp ha).1]
  have ha2 : a ≤ 1 + d := by linarith [(abs_le.mp ha).2]
  have hd1 : 0 ≤ 1 - d := by linarith
  have hlow : 1 - d ≤ Real.sqrt a := by
    calc 1 - d = Real.sqrt ((1 - d) ^ 2) := (Real.sqrt_sq hd1).symm
      _ ≤ Real.sqrt a := Real.sqrt_le_sqrt (by nlinarith)
  have hhigh : Real.sqrt a ≤ 1 + d := by
    calc Real.sqrt a ≤ Real.sqrt ((1 + d) ^ 2) := Real.sqrt_le_sqrt (by nlinarith)
      _ = 1 + d := Real.sqrt_sq (by linarith)
  exact abs_le.mpr ⟨by linarith, by linarith⟩

/-- `|a - b| ≤ |a| + |b|`. -/
theorem abs_sub_le_abs_add_abs (a b : ℝ) : |a - b| ≤ |a| + |b| := by
  calc |a - b| = |a + -b| := by ring_nf
    _ ≤ |a| + |-b| := abs_add _ _
    _ = |a| + |b| := by rw [abs_neg]

/-- Bound on one component of the logarithm's translation part in the
small-angle regime: it is within `T·P` of half the translation
component, and bounded by `T`. -/
theorem exp_small_v_core (g Rk Ra Rb ta tb tk M D P T : ℝ)
    (hP0 : 0 ≤ P) (hP : P ≤ 1e-8) (hTnn : 0 ≤ T)
    (hg : |g| ≤ T * P / 2)
    (hRk : |Rk| ≤ P) (hRa : |Ra| ≤ P) (hRb : |Rb| ≤ P)
    (htab : |ta| + |tb| ≤ T) (htk : |tk| ≤ T)
    (hM : |M - 1| ≤ P ^ 2) (hD0 : 0 ≤ D) (hD1 : D ≤ 1) :
    |D * g * Rk + M * (tk / 2) + (ta / 2 * Rb - tb / 2 * Ra) - tk / 2| ≤
      T * P ∧
    |D * g * Rk + M * (tk / 2) + (ta / 2 * Rb - tb / 2 * Ra)| ≤ T := by
  have hDa : |D| ≤ 1 := by rw [abs_of_nonneg hD0]; exact hD1
  have h1 : |D * g * Rk| ≤ 1 * (T * P / 2) * P := by
    rw [abs_mul, abs_mul]
    gcongr
  have h2 : |(M - 1) * (tk / 2)| ≤ P ^ 2 * (T / 2) := by
    rw [abs_mul]
    have htk2 : |tk / 2| ≤ T / 2 := by
      rw [abs_div, abs_two]
      linarith [htk]
    gcongr
  have h3 : |ta / 2 * Rb - tb / 2 * Ra| ≤ |ta| / 2 * P + |tb| / 2 * P := by
    calc |ta / 2 * Rb - tb / 2 * Ra| ≤ |ta / 2 * Rb| + |tb / 2 * Ra| :=
        abs_sub_le_abs_add_abs _ _
      _ ≤ |ta| / 2 * P + |tb| / 2 * P := by
        rw [abs_mul, abs_mul, abs_div, abs_div, abs_two]
        gcongr
  have hsplit : D * g * Rk + M * (tk / 2) + (ta / 2 * Rb - tb / 2 * Ra) -
      tk / 2 = D * g * Rk + (M - 1) * (tk / 2) +
      (ta / 2 * Rb - tb / 2 * Ra) := by ring
  have hmain : |D * g * Rk + M * (tk / 2) + (ta / 2 * Rb - tb / 2 * Ra) -
      tk / 2| ≤ T * P := by
    rw [hsplit]
    calc |D * g * Rk + (M - 1) * (tk / 2) + (ta / 2 * Rb - tb / 2 * Ra)| ≤
        |D * g * Rk| + |(M - 1) * (tk / 2)| + |ta / 2 * Rb - tb / 2 * Ra| :=
        abs_add3 _ _ _
      _ ≤ T * P := by
        nlinarith [mul_nonneg (mul_nonneg hTnn hP0) (show (0:ℝ) ≤ 1/2 - P by linarith), mul_le_mul_of_nonneg_right htab hP0, abs_nonneg ta, abs_nonneg tb]
  refine ⟨hmain, ?_⟩
  have := abs_sub_le_abs_add_abs (D * g * Rk + M * (tk / 2) +
    (ta / 2 * Rb - tb / 2 * Ra)) (tk / 2)
  have habs : |D * g * Rk + M * (tk / 2) + (ta / 2 * Rb - tb / 2 * Ra)| ≤
      |D * g * Rk + M * (tk / 2) + (ta / 2 * Rb - tb / 2 * Ra) - tk / 2| +
        |tk / 2| := by
    have h := abs_add (D * g * Rk + M * (tk / 2) +
      (ta / 2 * Rb - tb / 2 * Ra) - tk / 2) (tk / 2)
    calc |D * g * Rk + M * (tk / 2) + (ta / 2 * Rb - tb / 2 * Ra)| =
        |D * g * Rk + M * (tk / 2) + (ta / 2 * Rb - tb / 2 * Ra) - tk / 2 +
          tk / 2| := by ring_nf
      _ ≤ _ := h
  have htk2 : |tk / 2| ≤ T / 2 := by
    rw [abs_div, abs_two]
    linarith [htk]
  nlinarith [hmain, habs, htk2, mul_nonneg (mul_nonneg hTnn hP0) (show (0:ℝ) ≤ 1/2 - P by linarith)]

/-- Product bound from factor bounds. -/
theorem abs_mul_le {a b A B : ℝ} (ha : |a| ≤ A) (hb : |b| ≤ B) :
    |a * b| ≤ A * B := by
  rw [abs_mul]
  exact mul_le_mul ha hb (abs_nonneg b) (le_trans (abs_nonneg a) ha)

/-- Bound on one component of the exponential's output translation in
the small-angle regime: it is within `1e-6·(1+T)` of the original
translation component. -/
theorem exp_small_trans_core (m1 m2 w R1 R2 R3 V1 V2 V3 t1 P T : ℝ)
    (hP0 : 0 ≤ P) (hP : P ≤ 1e-8) (hTnn : 0 ≤ T)
    (hm1a : |m1| ≤ 1) (hm1b : |m1 - 1| ≤ P ^ 2)
    (hw1 : |w| ≤ 1) (hw2 : |w - 1| ≤ P ^ 2)
    (hm2 : |m2| ≤ 4 / 3)
    (hR1 : |R1| ≤ P) (hR2 : |R2| ≤ P) (hR3 : |R3| ≤ P)
    (hV1 : |V1| ≤ T) (hV2 : |V2| ≤ T) (hV3 : |V3| ≤ T)
    (hV1t : |V1 - t1 / 2| ≤ T * P) (ht1 : |t1| ≤ T) :
    ∀ E : ℝ, E = 2 * (m1 * (m1 * R2 * V3 - m1 * R3 * V2)) +
        w * 2 * m1 * V1 + m2 * (R1 * V1 + R2 * V2 + R3 * V3) * R1 →
      |E - t1| ≤ 1e-6 * (1 + T) := by
  intro E hE
  have hwm : |w * m1 - 1| ≤ 2 * P ^ 2 := by
    have hid : w * m1 - 1 = (w - 1) * m1 + (m1 - 1) := by ring
    rw [hid]
    have h1 : |(w - 1) * m1| ≤ P ^ 2 * 1 := abs_mul_le hw2 hm1a
    calc |(w - 1) * m1 + (m1 - 1)| ≤ |(w - 1) * m1| + |m1 - 1| := abs_add _ _
      _ ≤ 2 * P ^ 2 := by linarith
  have hsplit : E - t1 = 2 * (m1 * (m1 * R2 * V3 - m1 * R3 * V2)) +
      2 * (w * m1 * (V1 - t1 / 2)) + (w * m1 - 1) * t1 +
      m2 * (R1 * V1 + R2 * V2 + R3 * V3) * R1 := by
    rw [hE]; ring
  have hA : |2 * (m1 * (m1 * R2 * V3 - m1 * R3 * V2))| ≤
      2 * (1 * (1 * P * T + 1 * P * T)) := by
    have h1 : |m1 * R2 * V3| ≤ 1 * P * T := abs_mul_le (abs_mul_le hm1a hR2) hV3
    have h2 : |m1 * R3 * V2| ≤ 1 * P * T := abs_mul_le (abs_mul_le hm1a hR3) hV2
    have hin : |m1 * R2 * V3 - m1 * R3 * V2| ≤ 1 * P * T + 1 * P * T :=
      le_trans (abs_sub_le_abs_add_abs _ _) (by linarith)
    have h3 : |m1 * (m1 * R2 * V3 - m1 * R3 * V2)| ≤
        1 * (1 * P * T + 1 * P * T) := abs_mul_le hm1a hin
    calc |2 * (m1 * (m1 * R2 * V3 - m1 * R3 * V2))| =
        2 * |m1 * (m1 * R2 * V3 - m1 * R3 * V2)| := by rw [abs_mul, abs_two]
      _ ≤ 2 * (1 * (1 * P * T + 1 * P * T)) := by linarith
  have hB : |2 * (w * m1 * (V1 - t1 / 2))| ≤ 2 * (1 * 1 * (T * P)) := by
    have h1 : |w * m1 * (V1 - t1 / 2)| ≤ 1 * 1 * (T * P) :=
      abs_mul_le (abs_mul_le hw1 hm1a) hV1t
    calc |2 * (w * m1 * (V1 - t1 / 2))| = 2 * |w * m1 * (V1 - t1 / 2)| := by rw [abs_mul, abs_two]
      _ ≤ 2 * (1 * 1 * (T * P)) := by linarith
  have hC : |(w * m1 - 1) * t1| ≤ 2 * P ^ 2 * T := abs_mul_le hwm ht1
  have hD : |m2 * (R1 * V1 + R2 * V2 + R3 * V3) * R1| ≤
      4 / 3 * (P * T + P * T + P * T) * P := by
    have g1 : |R1 * V1| ≤ P * T := abs_mul_le hR1 hV1
    have g2 : |R2 * V2| ≤ P * T := abs_mul_le hR2 hV2
    have g3 : |R3 * V3| ≤ P * T := abs_mul_le hR3 hV3
    have hγ : |R1 * V1 + R2 * V2 + R3 * V3| ≤ P * T + P * T + P * T :=
      le_trans (abs_add3 _ _ _) (by linarith)
    exact abs_mul_le (abs_mul_le hm2 hγ) hR1
  have habs : |E - t1| ≤ |2 * (m1 * (m1 * R2 * V3 - m1 * R3 * V2))| +
      |2 * (w * m1 * (V1 - t1 / 2))| + |(w * m1 - 1) * t1| +
      |m2 * (R1 * V1 + R2 * V2 + R3 * V3) * R1| := by
    rw [hsplit]
    calc |2 * (m1 * (m1 * R2 * V3 - m1 * R3 * V2)) +
        2 * (w * m1 * (V1 - t1 / 2)) + (w * m1 - 1) * t1 +
        m2 * (R1 * V1 + R2 * V2 + R3 * V3) * R1| ≤
        |2 * (m1 * (m1 * R2 * V3 - m1 * R3 * V2)) +
          2 * (w * m1 * (V1 - t1 / 2)) + (w * m1 - 1) * t1| +
        |m2 * (R1 * V1 + R2 * V2 + R3 * V3) * R1| := abs_add _ _
      _ ≤ _ := by linarith [abs_add3 (2 * (m1 * (m1 * R2 * V3 - m1 * R3 * V2))) (2 * (w * m1 * (V1 - t1 / 2))) ((w * m1 - 1) * t1)]
  have hPT : P * T ≤ 1e-8 * T := mul_le_mul_of_nonneg_right hP hTnn
  have hP2 : P ^ 2 ≤ 1e-8 * P := by nlinarith
  have hP2T : P ^ 2 * T ≤ 1e-8 * P * T :=
    mul_le_mul_of_nonneg_right hP2 hTnn
  nlinarith [hA, hB, hC, hD, habs, hPT, hP2T, hTnn, mul_nonneg hP0 hTnn]
set_option maxHeartbeats 1600000 in
/-- Bound on the exponential's output rotation in the small-angle
regime: the normalized quaternion components are within `1e-6` of the
original components. -/
theorem exp_small_rot_core (P S c m1 EN : ℝ)
    (hP0 : 0 < P) (hP : P ≤ 1e-8)
    (hS : S = Real.sin P) (hc : c = Real.cos P)
    (hm1 : m1 = 1 - P ^ 2 / 6 + P ^ 4 / 120)
    (hEN : EN = c ^ 2 + (m1 * P) ^ 2) :
    |c / Real.sqrt EN - c| ≤ 1e-6 ∧
    ∀ Rk : ℝ, |Rk| ≤ P → |m1 * Rk / Real.sqrt EN - S / P * Rk| ≤ 1e-6 := by
  have hPle1 : P ≤ 1 := by linarith
  have hPabs : |P| ≤ 1 := by rw [abs_of_pos hP0]; exact hPle1
  have hp2 : P ^ 2 ≤ P := by nlinarith
  have hp3 : P ^ 3 ≤ P ^ 2 := by nlinarith [sq_nonneg P]
  have hp4 : P ^ 4 ≤ P ^ 3 := by nlinarith [pow_nonneg hP0.le 3]
  have hp5 : P ^ 5 ≤ P ^ 4 := by nlinarith [pow_nonneg hP0.le 4]
  have hsb := Real.sin_bound hPabs
  have hm1P : |m1 * P - Real.sin P| ≤ P ^ 4 := by
    have h1 : m1 * P - (P - P ^ 3 / 6) = P ^ 5 / 120 := by rw [hm1]; ring
    have h2 : |m1 * P - Real.sin P| ≤ |m1 * P - (P - P ^ 3 / 6)| +
        |(P - P ^ 3 / 6) - Real.sin P| := abs_sub_le _ _ _
    have h3 : |m1 * P - (P - P ^ 3 / 6)| = P ^ 5 / 120 := by
      rw [h1, abs_of_nonneg (by positivity)]
    have h4 : |(P - P ^ 3 / 6) - Real.sin P| ≤ |P| ^ 4 * (5 / 96) := by
      rw [abs_sub_comm]; exact hsb
    rw [abs_of_pos hP0] at h4
    nlinarith [h2]
  have hsin0 : 0 ≤ Real.sin P :=
    Real.sin_nonneg_of_nonneg_of_le_pi hP0.le
      (by linarith [Real.pi_gt_three])
  have hsinP : Real.sin P ≤ P := sin_le_self hP0.le
  have hm10 : 0 ≤ m1 := by rw [hm1]; nlinarith
  have hm11 : m1 ≤ 1 := by rw [hm1]; nlinarith
  have hm1Ps : |m1 * P + Real.sin P| ≤ 2 * P := by
    rw [abs_of_nonneg (by positivity)]
    nlinarith
  have hEN1 : |EN - 1| ≤ 2 * P ^ 5 := by
    have hc2 : c ^ 2 = 1 - Real.sin P ^ 2 := by
      rw [hc]; linarith [Real.sin_sq_add_cos_sq P]
    have hfact : EN - 1 = (m1 * P - Real.sin P) * (m1 * P + Real.sin P) := by
      rw [hEN, hc2]; ring
    have habs2 : |EN - 1| = |m1 * P - Real.sin P| * |m1 * P + Real.sin P| := by rw [hfact, abs_mul]
    rw [habs2]
    have hmm := mul_le_mul hm1P hm1Ps (abs_nonneg _)
      (show (0 : ℝ) ≤ P ^ 4 by positivity)
    nlinarith [hmm]
  have h2P5 : 2 * P ^ 5 ≤ 1 / 2 := by nlinarith
  have hsqrt : |Real.sqrt EN - 1| ≤ 2 * P ^ 5 :=
    sqrt_close_one (by positivity) h2P5 hEN1
  have hge : 1 / 2 ≤ Real.sqrt EN := by
    have := (abs_le.mp hsqrt).1
    linarith
  have hrpos : 0 < Real.sqrt EN := by linarith
  have hrne : Real.sqrt EN ≠ 0 := ne_of_gt hrpos
  have hc1 : |c| ≤ 1 := by rw [hc]; exact Real.abs_cos_le_one P
  constructor
  · have heq : c / Real.sqrt EN - c = c * (1 - Real.sqrt EN) / Real.sqrt EN := by
      rw [eq_div_iff hrne, sub_mul, div_mul_cancel₀ _ hrne]; ring
    rw [heq, abs_div, abs_of_pos hrpos]
    have hnum : |c * (1 - Real.sqrt EN)| ≤ 2 * P ^ 5 := by
      have h5 : |1 - Real.sqrt EN| ≤ 2 * P ^ 5 := by
        rw [abs_sub_comm]; exact hsqrt
      have h6 := abs_mul_le hc1 h5
      linarith
    have h7 : |c * (1 - Real.sqrt EN)| / Real.sqrt EN ≤ (2 * P ^ 5) / (1 / 2) :=
      div_le_div₀ (by positivity) hnum (by norm_num) hge
    refine le_trans h7 ?_
    linarith
  · intro Rk hRk
    have hfac : m1 * Rk / Real.sqrt EN - S / P * Rk =
        Rk * (m1 / Real.sqrt EN - S / P) := by
      ring
    have ht1 : |m1 / Real.sqrt EN - m1| ≤ 4 * P ^ 5 := by
      have heq : m1 / Real.sqrt EN - m1 =
          m1 * (1 - Real.sqrt EN) / Real.sqrt EN := by
        rw [eq_div_iff hrne, sub_mul, div_mul_cancel₀ _ hrne]; ring
      rw [heq, abs_div, abs_of_pos hrpos]
      have hnum : |m1 * (1 - Real.sqrt EN)| ≤ 2 * P ^ 5 := by
        have h5 : |1 - Real.sqrt EN| ≤ 2 * P ^ 5 := by
          rw [abs_sub_comm]; exact hsqrt
        have hm1abs : |m1| ≤ 1 := by rw [abs_of_nonneg hm10]; exact hm11
        have h6 := abs_mul_le hm1abs h5
        linarith
      have h7 : |m1 * (1 - Real.sqrt EN)| / Real.sqrt EN ≤ (2 * P ^ 5) / (1 / 2) :=
        div_le_div₀ (by positivity) hnum (by norm_num) hge
      refine le_trans h7 ?_
      linarith
    have ht2 : |m1 - S / P| ≤ P ^ 3 := by
      have heq : m1 - S / P = (m1 * P - Real.sin P) / P := by
        rw [hS, eq_div_iff (ne_of_gt hP0), sub_mul,
          div_mul_cancel₀ _ (ne_of_gt hP0)]
      rw [heq, abs_div, abs_of_pos hP0]
      rw [div_le_iff hP0]
      calc |m1 * P - Real.sin P| ≤ P ^ 4 := hm1P
        _ = P ^ 3 * P := by ring
    have hmid : |m1 / Real.sqrt EN - S / P| ≤ 4 * P ^ 5 + P ^ 3 := by
      have h6 : |m1 / Real.sqrt EN - S / P| ≤ |m1 / Real.sqrt EN - m1| +
          |m1 - S / P| := abs_sub_le _ _ _
      linarith
    rw [hfac]
    have h8 : |Rk * (m1 / Real.sqrt EN - S / P)| ≤ P * (4 * P ^ 5 + P ^ 3) :=
      abs_mul_le hRk hmid
    refine le_trans h8 ?_
    nlinarith [pow_nonneg hP0.le 3, pow_nonneg hP0.le 5]
set_option maxHeartbeats 1600000 in
/-- Shape of the logarithm in the small-angle regime `φ < 1e-8` with a
nonvanishing rotation vector part: the rotation part of the twist is
`(φ/s)·(x,y,z)` and the translation part has the generic form with a
coefficient `M` within `φ²` of `1` and a coefficient `D` in `[0,1]`,
whichever Taylor branches are taken. -/
theorem ln_small_shape (tx ty tz w x y z S P : ℝ)
    (hS : V3.norm ⟨x, y, z⟩ = S)
    (hP : atan2 S w = P)
    (hspos : 0 < S)
    (hppos : 0 < P) (hphi : P < 1e-8)
    (hsin : Real.sin P = S) (hcos : Real.cos P = w) :
    ∃ M D : ℝ,
      |M - 1| ≤ P ^ 2 ∧ 0 ≤ D ∧ D ≤ 1 ∧
      IDQ.ln ⟨⟨tx, ty, tz⟩, ⟨w, x, y, z⟩⟩ =
        ⟨P / S * x, P / S * y, P / S * z,
         D * (tx / 2 * (P / S * x) + ty / 2 * (P / S * y) +
             tz / 2 * (P / S * z)) * (P / S * x) + M * (tx / 2) +
           (ty / 2 * (P / S * z) - tz / 2 * (P / S * y)),
         D * (tx / 2 * (P / S * x) + ty / 2 * (P / S * y) +
             tz / 2 * (P / S * z)) * (P / S * y) + M * (ty / 2) +
           (tz / 2 * (P / S * x) - tx / 2 * (P / S * z)),
         D * (tx / 2 * (P / S * x) + ty / 2 * (P / S * y) +
             tz / 2 * (P / S * z)) * (P / S * z) + M * (tz / 2) +
           (tx / 2 * (P / S * y) - ty / 2 * (P / S * x))⟩ := by
  have hPle1 : P ≤ 1 := by linarith
  have hPabs : |P| ≤ 1 := by rw [abs_of_pos hppos]; exact hPle1
  have hp2 : P ^ 2 ≤ P := by nlinarith
  have hp3 : P ^ 3 ≤ P ^ 2 := by nlinarith [sq_nonneg P]
  have hp4 : P ^ 4 ≤ P ^ 3 := by nlinarith [pow_nonneg hppos.le 3]
  have hp5 : P ^ 5 ≤ P ^ 4 := by nlinarith [pow_nonneg hppos.le 4]
  have hsb := Real.sin_bound hPabs
  have hcb := Real.cos_bound hPabs
  rw [hsin] at hsb
  rw [hcos] at hcb
  rw [abs_of_pos hppos] at hsb hcb
  obtain ⟨hsbl, hsbu⟩ := abs_le.mp hsb
  obtain ⟨hcbl, hcbu⟩ := abs_le.mp hcb
  have hsl : P - P ^ 3 / 6 - P ^ 4 * (5 / 96) ≤ S := by linarith
  have hsu : S ≤ P - P ^ 3 / 6 + P ^ 4 * (5 / 96) := by linarith
  have hcl : 1 - P ^ 2 / 2 - P ^ 4 * (5 / 96) ≤ w := by linarith
  have hcu : w ≤ 1 - P ^ 2 / 2 + P ^ 4 * (5 / 96) := by linarith
  have hS2 : P / 2 ≤ S := by nlinarith
  have hSP : S ≤ P := by nlinarith
  have hsne : S ≠ 0 := ne_of_gt hspos
  have hpne : P ≠ 0 := ne_of_gt hppos
  have hwPu : w * P ≤ (1 - P ^ 2 / 2 + P ^ 4 * (5 / 96)) * P :=
    mul_le_mul_of_nonneg_right hcu hppos.le
  have hwPl : (1 - P ^ 2 / 2 - P ^ 4 * (5 / 96)) * P ≤ w * P :=
    mul_le_mul_of_nonneg_right hcl hppos.le
  have hP2S : P ^ 2 * (P / 2) ≤ P ^ 2 * S :=
    mul_le_mul_of_nonneg_left hS2 (sq_nonneg P)
  have hP2Su : P ^ 2 * S ≤ P ^ 2 * P :=
    mul_le_mul_of_nonneg_left hSP (sq_nonneg P)
  have hMexact : |w * P / S - 1| ≤ P ^ 2 := by
    have key1 : w * P - S ≤ P ^ 2 * S := by nlinarith [hwPu, hsl, hP2S]
    have key2 : -(P ^ 2 * S) ≤ w * P - S := by nlinarith [hwPl, hsu, hP2Su]
    have heq : w * P / S - 1 = (w * P - S) / S := by
      rw [eq_div_iff hsne, sub_mul, div_mul_cancel₀ _ hsne]; ring
    rw [heq, abs_div, abs_of_pos hspos, div_le_iff₀ hspos]
    exact abs_le.mpr ⟨key2, key1⟩
  have hMtaylor : |1 - P ^ 2 / 3 - P ^ 4 / 45 - 1| ≤ P ^ 2 := by
    rw [show 1 - P ^ 2 / 3 - P ^ 4 / 45 - 1 = -(P ^ 2 / 3 + P ^ 4 / 45) from
      by ring, abs_neg, abs_of_nonneg (by positivity)]
    nlinarith
  have hwPleS : w * P ≤ S := by nlinarith [hwPu, hsl]
  have hSwP : S - w * P ≤ P ^ 2 * S := by nlinarith [hsu, hwPl, hP2S]
  by_cases hScase : S < 1e-14 <;> by_cases hPcase : P < 1e-14
  · refine ⟨1 - P ^ 2 / 3 - P ^ 4 / 45,
      1 / 3 + P ^ 2 / 45 + 2 * P ^ 4 / 945, hMtaylor, by positivity,
      by nlinarith, ?_⟩
    unfold IDQ.ln genericPoseLn
    simp only [Quat.vecPart]
    rw [hS, hP]
    rw [if_pos hspos, if_pos hScase, if_pos hPcase]
    apply V6.ext6 <;> simp only [V3.smul, V3.add, V3.dot, V3.cross] <;> ring
  · refine ⟨1 - P ^ 2 / 3 - P ^ 4 / 45,
      (1 - (1 - P ^ 2 / 3 - P ^ 4 / 45)) / P ^ 2, hMtaylor, ?_, ?_, ?_⟩
    · have heq : (1 - (1 - P ^ 2 / 3 - P ^ 4 / 45)) / P ^ 2 =
          1 / 3 + P ^ 2 / 45 := by field_simp; ring
      rw [heq]; positivity
    · have heq : (1 - (1 - P ^ 2 / 3 - P ^ 4 / 45)) / P ^ 2 =
          1 / 3 + P ^ 2 / 45 := by field_simp; ring
      rw [heq]; nlinarith
    · unfold IDQ.ln genericPoseLn
      simp only [Quat.vecPart]
      rw [hS, hP]
      rw [if_pos hspos, if_pos hScase, if_neg hPcase]
      apply V6.ext6 <;> simp only [V3.smul, V3.add, V3.dot, V3.cross] <;> ring
  · refine ⟨w * P / S, 1 / 3 + P ^ 2 / 45 + 2 * P ^ 4 / 945, hMexact,
      by positivity, by nlinarith, ?_⟩
    unfold IDQ.ln genericPoseLn
    simp only [Quat.vecPart]
    rw [hS, hP]
    rw [if_pos hspos, if_neg hScase, if_pos hPcase]
    apply V6.ext6 <;> simp only [V3.smul, V3.add, V3.dot, V3.cross] <;>
      field_simp <;> ring
  · refine ⟨w * P / S, (1 - w * P / S) / P ^ 2, hMexact, ?_, ?_, ?_⟩
    · apply div_nonneg _ (sq_nonneg P)
      rw [sub_nonneg, div_le_one hspos]
      exact hwPleS
    · rw [div_le_one (pow_pos hppos 2)]
      have heq : 1 - w * P / S = (S - w * P) / S := by
        rw [eq_div_iff hsne, sub_mul, div_mul_cancel₀ _ hsne]; ring
      rw [heq, div_le_iff₀ hspos]
      nlinarith [hSwP]
    · unfold IDQ.ln genericPoseLn
      simp only [Quat.vecPart]
      rw [hS, hP]
      rw [if_pos hspos, if_neg hScase, if_neg hPcase]
      apply V6.ext6 <;> simp only [V3.smul, V3.add, V3.dot, V3.cross] <;>
        field_simp <;> ring

set_option maxHeartbeats 4000000 in
/-- Small-angle branch of the round trip: when `φ < 1e-8`, `exp (ln p)`
reproduces the translation within `1e-6·(1+‖t‖₁)` componentwise and the
rotation quaternion within `1e-6` componentwise. -/
theorem expLn_small_comp (tx ty tz w x y z S P : ℝ)
    (hS : V3.norm ⟨x, y, z⟩ = S)
    (hP : atan2 S w = P)
    (hq : w ^ 2 + x ^ 2 + y ^ 2 + z ^ 2 = 1)
    (hspos : 0 < S)
    (hphi : P < 1e-8) :
    (|(IDQ.exp (IDQ.ln ⟨⟨tx, ty, tz⟩, ⟨w, x, y, z⟩⟩)).translation.x - tx| ≤
        1e-6 * (1 + (|tx| + |ty| + |tz|)) ∧
      |(IDQ.exp (IDQ.ln ⟨⟨tx, ty, tz⟩, ⟨w, x, y, z⟩⟩)).translation.y - ty| ≤
        1e-6 * (1 + (|tx| + |ty| + |tz|)) ∧
      |(IDQ.exp (IDQ.ln ⟨⟨tx, ty, tz⟩, ⟨w, x, y, z⟩⟩)).translation.z - tz| ≤
        1e-6 * (1 + (|tx| + |ty| + |tz|))) ∧
    (|(IDQ.exp (IDQ.ln ⟨⟨tx, ty, tz⟩, ⟨w, x, y, z⟩⟩)).rotation.w - w| ≤ 1e-6 ∧
      |(IDQ.exp (IDQ.ln ⟨⟨tx, ty, tz⟩, ⟨w, x, y, z⟩⟩)).rotation.x - x| ≤ 1e-6 ∧
      |(IDQ.exp (IDQ.ln ⟨⟨tx, ty, tz⟩, ⟨w, x, y, z⟩⟩)).rotation.y - y| ≤ 1e-6 ∧
      |(IDQ.exp (IDQ.ln ⟨⟨tx, ty, tz⟩, ⟨w, x, y, z⟩⟩)).rotation.z - z| ≤ 1e-6) := by
  have hs2 : S ^ 2 = x ^ 2 + y ^ 2 + z ^ 2 := by
    rw [← hS]; exact V3.sq_norm _
  have hcs : w ^ 2 + S ^ 2 = 1 := by rw [hs2]; linarith
  have hsinP : Real.sin P = S := by rw [← hP]; exact sin_atan2 hcs
  have hcosP : Real.cos P = w := by rw [← hP]; exact cos_atan2 hcs
  have hsnn : 0 ≤ S := hspos.le
  have hpnn : 0 ≤ P := by rw [← hP]; exact atan2_nonneg hsnn
  have hppos : 0 < P := by
    rcases lt_or_eq_of_le hpnn with h | h
    · exact h
    · exfalso; apply ne_of_gt hspos; rw [← hsinP, ← h, Real.sin_zero]
  have hsne : S ≠ 0 := ne_of_gt hspos
  have hpne : P ≠ 0 := ne_of_gt hppos
  have hPle : P ≤ 1e-8 := hphi.le
  have hPle1 : P ≤ 1 := by linarith
  have hPabs : |P| ≤ 1 := by rw [abs_of_pos hppos]; exact hPle1
  have hp2 : P ^ 2 ≤ P := by nlinarith
  have hp3 : P ^ 3 ≤ P ^ 2 := by nlinarith [sq_nonneg P]
  have hp4 : P ^ 4 ≤ P ^ 3 := by nlinarith [pow_nonneg hppos.le 3]
  have hcb := Real.cos_bound hPabs
  rw [hcosP] at hcb
  rw [abs_of_pos hppos] at hcb
  obtain ⟨hcbl, hcbu⟩ := abs_le.mp hcb
  have hw1 : |w| ≤ 1 := by rw [← hcosP]; exact Real.abs_cos_le_one P
  have hw2 : |w - 1| ≤ P ^ 2 := by
    rw [abs_le]
    constructor
    · nlinarith [hcbl]
    · nlinarith [(abs_le.mp hw1).2, sq_nonneg P]
  have hxle : |x| ≤ S := by
    have h := (V3.abs_comp_le_norm ⟨x, y, z⟩).1
    rw [hS] at h; exact h
  have hyle : |y| ≤ S := by
    have h := (V3.abs_comp_le_norm ⟨x, y, z⟩).2.1
    rw [hS] at h; exact h
  have hzle : |z| ≤ S := by
    have h := (V3.abs_comp_le_norm ⟨x, y, z⟩).2.2
    rw [hS] at h; exact h
  have hPSnn : 0 ≤ P / S := div_nonneg hpnn hsnn
  have hRx : |P / S * x| ≤ P := by
    rw [abs_mul, abs_of_nonneg hPSnn]
    calc P / S * |x| ≤ P / S * S := mul_le_mul_of_nonneg_left hxle hPSnn
      _ = P := by field_simp
  have hRy : |P / S * y| ≤ P := by
    rw [abs_mul, abs_of_nonneg hPSnn]
    calc P / S * |y| ≤ P / S * S := mul_le_mul_of_nonneg_left hyle hPSnn
      _ = P := by field_simp
  have hRz : |P / S * z| ≤ P := by
    rw [abs_mul, abs_of_nonneg hPSnn]
    calc P / S * |z| ≤ P / S * S := mul_le_mul_of_nonneg_left hzle hPSnn
      _ = P := by field_simp
  have hTnn : (0 : ℝ) ≤ |tx| + |ty| + |tz| := by positivity
  have htxT : |tx| ≤ |tx| + |ty| + |tz| := by
    linarith [abs_nonneg ty, abs_nonneg tz]
  have htyT : |ty| ≤ |tx| + |ty| + |tz| := by
    linarith [abs_nonneg tx, abs_nonneg tz]
  have htzT : |tz| ≤ |tx| + |ty| + |tz| := by
    linarith [abs_nonneg tx, abs_nonneg ty]
  have hg : |tx / 2 * (P / S * x) + ty / 2 * (P / S * y) +
      tz / 2 * (P / S * z)| ≤ (|tx| + |ty| + |tz|) * P / 2 := by
    have g1 : |tx / 2 * (P / S * x)| ≤ |tx| / 2 * P :=
      abs_mul_le (le_of_eq (by rw [abs_div, abs_two])) hRx
    have g2 : |ty / 2 * (P / S * y)| ≤ |ty| / 2 * P :=
      abs_mul_le (le_of_eq (by rw [abs_div, abs_two])) hRy
    have g3 : |tz / 2 * (P / S * z)| ≤ |tz| / 2 * P :=
      abs_mul_le (le_of_eq (by rw [abs_div, abs_two])) hRz
    have h4 := abs_add3 (tx / 2 * (P / S * x)) (ty / 2 * (P / S * y))
      (tz / 2 * (P / S * z))
    nlinarith [h4]
  obtain ⟨M, D, hM, hD0, hD1, hlneq⟩ :=
    ln_small_shape tx ty tz w x y z S P hS hP hspos hppos hphi hsinP hcosP
  obtain ⟨hVxt, hVxb⟩ := exp_small_v_core
    (tx / 2 * (P / S * x) + ty / 2 * (P / S * y) + tz / 2 * (P / S * z))
    (P / S * x) (P / S * y) (P / S * z) ty tz tx M D P
    (|tx| + |ty| + |tz|) hpnn hPle hTnn hg hRx hRy hRz
    (by linarith [abs_nonneg tx]) htxT hM hD0 hD1
  obtain ⟨hVyt, hVyb⟩ := exp_small_v_core
    (tx / 2 * (P / S * x) + ty / 2 * (P / S * y) + tz / 2 * (P / S * z))
    (P / S * y) (P / S * z) (P / S * x) tz tx ty M D P
    (|tx| + |ty| + |tz|) hpnn hPle hTnn hg hRy hRz hRx
    (by linarith [abs_nonneg ty]) htyT hM hD0 hD1
  obtain ⟨hVzt, hVzb⟩ := exp_small_v_core
    (tx / 2 * (P / S * x) + ty / 2 * (P / S * y) + tz / 2 * (P / S * z))
    (P / S * z) (P / S * x) (P / S * y) tx ty tz M D P
    (|tx| + |ty| + |tz|) hpnn hPle hTnn hg hRz hRx hRy
    (by linarith [abs_nonneg tz]) htzT hM hD0 hD1
  have hm1a : |1 - P ^ 2 / 6 + P ^ 4 / 120| ≤ 1 := by
    rw [abs_of_nonneg (by nlinarith)]
    nlinarith
  have hm1b : |1 - P ^ 2 / 6 + P ^ 4 / 120 - 1| ≤ P ^ 2 := by
    rw [show 1 - P ^ 2 / 6 + P ^ 4 / 120 - 1 = -(P ^ 2 / 6 - P ^ 4 / 120) from
      by ring, abs_neg, abs_of_nonneg (by nlinarith)]
    nlinarith
  have hm2b : |4 / 3 - 4 * P ^ 2 / 15 + 8 * P ^ 4 / 315| ≤ 4 / 3 := by
    rw [abs_of_nonneg (by nlinarith)]
    nlinarith
  have hRsq : (P / S * x) ^ 2 + (P / S * y) ^ 2 + (P / S * z) ^ 2 = P ^ 2 := by
    field_simp
    linear_combination (-(P ^ 2)) * hs2
  obtain ⟨hrotw, hrotv⟩ := exp_small_rot_core P S w
    (1 - P ^ 2 / 6 + P ^ 4 / 120)
    (w ^ 2 + ((1 - P ^ 2 / 6 + P ^ 4 / 120) * (P / S * x)) ^ 2 +
      ((1 - P ^ 2 / 6 + P ^ 4 / 120) * (P / S * y)) ^ 2 +
      ((1 - P ^ 2 / 6 + P ^ 4 / 120) * (P / S * z)) ^ 2)
    hppos hPle hsinP.symm hcosP.symm rfl
    (by linear_combination ((1 - P ^ 2 / 6 + P ^ 4 / 120) ^ 2) * hRsq)
  rw [hlneq]
  unfold IDQ.exp genericPoseExp
  simp only
  have hnr : V3.norm ⟨P / S * x, P / S * y, P / S * z⟩ = P := by
    rw [show V3.mk (P / S * x) (P / S * y) (P / S * z) =
      V3.smul (P / S) ⟨x, y, z⟩ from rfl]
    rw [V3.norm_smul, abs_of_nonneg hPSnn, hS]
    field_simp
  rw [hnr]
  simp only [if_pos hphi]
  rw [hcosP]
  simp only [V3.smul, V3.add, V3.dot, V3.cross, Quat.normalize, Quat.norm,
    Quat.normSq, Quat.smul]
  refine ⟨⟨?_, ?_, ?_⟩, ⟨?_, ?_, ?_, ?_⟩⟩
  · exact exp_small_trans_core (1 - P ^ 2 / 6 + P ^ 4 / 120)
      (4 / 3 - 4 * P ^ 2 / 15 + 8 * P ^ 4 / 315) w
      (P / S * x) (P / S * y) (P / S * z) _ _ _ tx P (|tx| + |ty| + |tz|)
      hpnn hPle hTnn hm1a hm1b hw1 hw2 hm2b hRx hRy hRz hVxb hVyb hVzb
      hVxt htxT _ (by ring)
  · exact exp_small_trans_core (1 - P ^ 2 / 6 + P ^ 4 / 120)
      (4 / 3 - 4 * P ^ 2 / 15 + 8 * P ^ 4 / 315) w
      (P / S * y) (P / S * z) (P / S * x) _ _ _ ty P (|tx| + |ty| + |tz|)
      hpnn hPle hTnn hm1a hm1b hw1 hw2 hm2b hRy hRz hRx hVyb hVzb hVxb
      hVyt htyT _ (by ring)
  · exact exp_small_trans_core (1 - P ^ 2 / 6 + P ^ 4 / 120)
      (4 / 3 - 4 * P ^ 2 / 15 + 8 * P ^ 4 / 315) w
      (P / S * z) (P / S * x) (P / S * y) _ _ _ tz P (|tx| + |ty| + |tz|)
      hpnn hPle hTnn hm1a hm1b hw1 hw2 hm2b hRz hRx hRy hVzb hVxb hVyb
      hVzt htzT _ (by ring)
  · rw [one_div_mul_eq_div]
    exact hrotw
  · have h := hrotv (P / S * x) hRx
    rw [show S / P * (P / S * x) = x from by field_simp; ring] at h
    rw [one_div_mul_eq_div]
    exact h
  · have h := hrotv (P / S * y) hRy
    rw [show S / P * (P / S * y) = y from by field_simp; ring] at h
    rw [one_div_mul_eq_div]
    exact h
  · have h := hrotv (P / S * z) hRz
    rw [show S / P * (P / S * z) = z from by field_simp; ring] at h
    rw [one_div_mul_eq_div]
    exact h
set_option maxHeartbeats 4000000 in
/-- C1 (amended): for a pose whose rotation is a unit quaternion outside
the degenerate region (vector part of norm below `1e-14` with
nonpositive scalar part), `exp (ln p)` reproduces the pose up to
`1e-6·(1+‖t‖₁)` componentwise on the translation and `1e-6`
componentwise on the rotation quaternion; outside the Taylor branches
the round trip is exact. -/
theorem expLn_roundtrip_amended (tx ty tz w x y z : ℝ)
    (hq : Quat.normSq ⟨w, x, y, z⟩ = 1)
    (hreg : 1e-14 ≤ V3.norm ⟨x, y, z⟩ ∨ 0 < w) :
    (|(IDQ.exp (IDQ.ln ⟨⟨tx, ty, tz⟩, ⟨w, x, y, z⟩⟩)).translation.x - tx| ≤
        1e-6 * (1 + (|tx| + |ty| + |tz|)) ∧
      |(IDQ.exp (IDQ.ln ⟨⟨tx, ty, tz⟩, ⟨w, x, y, z⟩⟩)).translation.y - ty| ≤
        1e-6 * (1 + (|tx| + |ty| + |tz|)) ∧
      |(IDQ.exp (IDQ.ln ⟨⟨tx, ty, tz⟩, ⟨w, x, y, z⟩⟩)).translation.z - tz| ≤
        1e-6 * (1 + (|tx| + |ty| + |tz|))) ∧
    (|(IDQ.exp (IDQ.ln ⟨⟨tx, ty, tz⟩, ⟨w, x, y, z⟩⟩)).rotation.w - w| ≤ 1e-6 ∧
      |(IDQ.exp (IDQ.ln ⟨⟨tx, ty, tz⟩, ⟨w, x, y, z⟩⟩)).rotation.x - x| ≤ 1e-6 ∧
      |(IDQ.exp (IDQ.ln ⟨⟨tx, ty, tz⟩, ⟨w, x, y, z⟩⟩)).rotation.y - y| ≤ 1e-6 ∧
      |(IDQ.exp (IDQ.ln ⟨⟨tx, ty, tz⟩, ⟨w, x, y, z⟩⟩)).rotation.z - z| ≤ 1e-6)
    := by
  have hq' : w ^ 2 + x ^ 2 + y ^ 2 + z ^ 2 = 1 := by
    unfold Quat.normSq at hq; exact hq
  by_cases hphi : atan2 (V3.norm ⟨x, y, z⟩) w < 1e-8
  · by_cases hs0 : V3.norm ⟨x, y, z⟩ = 0
    · have hxyz : (⟨x, y, z⟩ : V3) = V3.zero := (V3.norm_eq_zero_iff _).mp hs0
      have h3 : x = 0 ∧ y = 0 ∧ z = 0 := by
        simpa [V3.zero, V3.mk.injEq] using hxyz
      obtain ⟨hx, hy, hz⟩ := h3
      subst hx; subst hy; subst hz
      have hw2 : w ^ 2 = 1 := by nlinarith [hq']
      have hcases : w = 1 ∨ w = -1 := by
        have hfac : (w - 1) * (w + 1) = 0 := by nlinarith
        rcases mul_eq_zero.mp hfac with h | h
        · left; linarith
        · right; linarith
      rcases hcases with hw | hw
      · subst hw
        have hres : IDQ.exp (IDQ.ln ⟨⟨tx, ty, tz⟩, ⟨1, 0, 0, 0⟩⟩) =
            ⟨⟨tx, ty, tz⟩, ⟨1, 0, 0, 0⟩⟩ := by
          have hln1 : IDQ.ln ⟨⟨tx, ty, tz⟩, ⟨1, 0, 0, 0⟩⟩ =
              ⟨0, 0, 0, tx / 2, ty / 2, tz / 2⟩ := by
            unfold IDQ.ln
            rw [genericPoseLn_scalar_quat, atan2_zero_one]
            apply V6.ext6 <;> norm_num
          rw [hln1]
          unfold IDQ.exp
          rw [genericPoseExp_zero_rot]
          simp only
          refine IDQ.ext2 _ _ ?_ rfl
          apply V3.ext3 <;> simp only <;> ring
        rw [hres]
        refine ⟨⟨?_, ?_, ?_⟩, ?_, ?_, ?_, ?_⟩
        all_goals simp
        all_goals positivity
      · exfalso
        rw [hs0, hw, atan2_zero_negOne] at hphi
        linarith [Real.pi_gt_three]
    · exact expLn_small_comp tx ty tz w x y z (V3.norm ⟨x, y, z⟩)
        (atan2 (V3.norm ⟨x, y, z⟩) w) rfl rfl hq'
        (lt_of_le_of_ne (V3.norm_nonneg _) (Ne.symm hs0)) hphi
  · have hphi' : 1e-8 ≤ atan2 (V3.norm ⟨x, y, z⟩) w := not_lt.mp hphi
    have hs : 1e-14 ≤ V3.norm ⟨x, y, z⟩ := by
      rcases hreg with h | hw
      · exact h
      · by_contra hcon
        push_neg at hcon
        have hsnn : 0 ≤ V3.norm ⟨x, y, z⟩ := V3.norm_nonneg _
        have hcs : w ^ 2 + V3.norm ⟨x, y, z⟩ ^ 2 = 1 := by
          rw [V3.sq_norm]; unfold V3.normSq; linarith
        have hsin := sin_atan2 hcs
        have hcos := cos_atan2 hcs
        have hphinn : 0 ≤ atan2 (V3.norm ⟨x, y, z⟩) w := atan2_nonneg hsnn
        have hlt : atan2 (V3.norm ⟨x, y, z⟩) w < Real.pi / 2 := by
          by_contra hge
          push_neg at hge
          have hcle : Real.cos (atan2 (V3.norm ⟨x, y, z⟩) w) ≤ 0 :=
            Real.cos_nonpos_of_pi_div_two_le_of_le hge
              (by linarith [atan2_le_pi (V3.norm ⟨x, y, z⟩) w, Real.pi_pos])
          rw [hcos] at hcle
          linarith
        have hmul := Real.mul_le_sin hphinn hlt.le
        rw [hsin] at hmul
        have h2pi : 1 / 2 ≤ 2 / Real.pi := by
          rw [div_le_div_iff (by norm_num) Real.pi_pos]
          linarith [Real.pi_le_four]
        have hkey : 1 / 2 * 1e-8 ≤
            2 / Real.pi * atan2 (V3.norm ⟨x, y, z⟩) w :=
          mul_le_mul h2pi hphi' (by norm_num)
            (le_trans (by norm_num) h2pi)
        linarith [hmul, hkey, hcon]
    have heq := expLn_exact_comp tx ty tz w x y z hq' hs hphi'
    rw [heq]
    refine ⟨⟨?_, ?_, ?_⟩, ?_, ?_, ?_, ?_⟩
    all_goals simp
    all_goals positivity

/-- Concrete instance of the amended C1 theorem: the identity rotation
with translation `(1, 2, 3)`. -/
theorem expLn_roundtrip_amended_witness :
    (Quat.normSq ⟨1, 0, 0, 0⟩ = 1 ∧
      (1e-14 ≤ V3.norm ⟨(0 : ℝ), 0, 0⟩ ∨ (0 : ℝ) < 1)) ∧
    ((|(IDQ.exp (IDQ.ln ⟨⟨1, 2, 3⟩, ⟨1, 0, 0, 0⟩⟩)).translation.x - 1| ≤
        1e-6 * (1 + (|(1 : ℝ)| + |(2 : ℝ)| + |(3 : ℝ)|)) ∧
      |(IDQ.exp (IDQ.ln ⟨⟨1, 2, 3⟩, ⟨1, 0, 0, 0⟩⟩)).translation.y - 2| ≤
        1e-6 * (1 + (|(1 : ℝ)| + |(2 : ℝ)| + |(3 : ℝ)|)) ∧
      |(IDQ.exp (IDQ.ln ⟨⟨1, 2, 3⟩, ⟨1, 0, 0, 0⟩⟩)).translation.z - 3| ≤
        1e-6 * (1 + (|(1 : ℝ)| + |(2 : ℝ)| + |(3 : ℝ)|))) ∧
    (|(IDQ.exp (IDQ.ln ⟨⟨1, 2, 3⟩, ⟨1, 0, 0, 0⟩⟩)).rotation.w - 1| ≤ 1e-6 ∧
      |(IDQ.exp (IDQ.ln ⟨⟨1, 2, 3⟩, ⟨1, 0, 0, 0⟩⟩)).rotation.x - 0| ≤ 1e-6 ∧
      |(IDQ.exp (IDQ.ln ⟨⟨1, 2, 3⟩, ⟨1, 0, 0, 0⟩⟩)).rotation.y - 0| ≤ 1e-6 ∧
      |(IDQ.exp (IDQ.ln ⟨⟨1, 2, 3⟩, ⟨1, 0, 0, 0⟩⟩)).rotation.z - 0| ≤ 1e-6)) :=
  ⟨⟨by unfold Quat.normSq; norm_num, Or.inr (by norm_num)⟩,
    expLn_roundtrip_amended 1 2 3 1 0 0 0 (by unfold Quat.normSq; norm_num)
      (Or.inr (by norm_num))⟩
